import Mathlib

/-!
Verification of `pypet/trajectory.py` (the `Trajectory` class).

This file shallowly embeds the parts of the source that the checked
properties talk about: the parameter leaves with their exploration
ranges, the run ledger (`_run_information`, `_single_run_ids`), the
exploration/expansion engine (`f_explore`, `f_expand`, `_add_run_info`),
shrinking, pickling shape (`__getstate__`/`__setstate__`), the run
cursor (`f_set_crun`, `f_restore_default`, `f_iter_runs`,
`f_idx_to_run`, `f_get_run_names`) and the merge engine
(`_merge_parameters`, `_merge_single_runs`, `_rename_key`,
`_merge_links` and the run-discarding guard of `f_merge`).

Python dictionaries are rendered as association lists with
insert-or-replace update; in-place mutation of the trajectory is
rendered as explicit state passing, an operation returning the final
state together with `Option String` (`some msg` models a raised
exception, in which case the returned state is the state at the moment
of the raise).  Parameter values are modelled as `Int` (the claims only
compare values for equality, so a single value kind suffices and makes
every definition executable).  Out-of-model parts are noted at each
definition: the storage service, backup, config bookkeeping and logging
are external collaborators and are omitted; group/result tree nodes are
modelled only as far as `_merge_links` needs them.
-/

set_option maxHeartbeats 1000000

namespace Pypet

/-! ## Association lists: the embedding of Python `dict` -/

/-- Python `d[k]` read (`None`-returning form): first entry with the key. -/
def alookup {K V : Type} [DecidableEq K] : List (K × V) → K → Option V
  | [], _ => none
  | (k, v) :: rest, key => if k = key then some v else alookup rest key

/-- Python `d[k] = v` write: replace in place if the key is present,
otherwise append (insertion order preserved, as for Python dicts). -/
def ainsert {K V : Type} [DecidableEq K] : List (K × V) → K → V → List (K × V)
  | [], key, val => [(key, val)]
  | (k, v) :: rest, key, val =>
      if k = key then (key, val) :: rest else (k, v) :: ainsert rest key val

theorem alookup_ainsert {K V : Type} [DecidableEq K] (l : List (K × V)) (k : K) (v : V) :
    alookup (ainsert l k v) k = some v := by
  induction l with
  | nil => simp [ainsert, alookup]
  | cons hd tl ih =>
    obtain ⟨k', v'⟩ := hd
    by_cases h : k' = k
    · simp [ainsert, h, alookup]
    · simp [ainsert, h, alookup, ih]

theorem alookup_ainsert_ne {K V : Type} [DecidableEq K] (l : List (K × V)) (k k' : K) (v : V)
    (h : k' ≠ k) : alookup (ainsert l k v) k' = alookup l k' := by
  have h' : ¬ (k = k') := fun hh => h hh.symm
  induction l with
  | nil => simp [ainsert, alookup, h']
  | cons hd tl ih =>
    obtain ⟨k0, v0⟩ := hd
    by_cases h0 : k0 = k
    · subst h0
      simp [ainsert, alookup, h']
    · by_cases h1 : k0 = k'
      · subst h1
        simp [ainsert, h0, alookup]
      · simp [ainsert, h0, alookup, h1, ih]

theorem keys_ainsert_mem {K V : Type} [DecidableEq K] (l : List (K × V)) (k : K) (v : V)
    (h : k ∈ l.map Prod.fst) : (ainsert l k v).map Prod.fst = l.map Prod.fst := by
  induction l with
  | nil => simp at h
  | cons hd tl ih =>
    obtain ⟨k0, v0⟩ := hd
    by_cases h0 : k0 = k
    · subst h0; simp [ainsert]
    · simp only [List.map_cons, List.mem_cons] at h
      rcases h with h | h
      · exact absurd h.symm h0
      · simp [ainsert, h0, ih h]

theorem keys_ainsert_not_mem {K V : Type} [DecidableEq K] (l : List (K × V)) (k : K) (v : V)
    (h : k ∉ l.map Prod.fst) : (ainsert l k v).map Prod.fst = l.map Prod.fst ++ [k] := by
  induction l with
  | nil => simp [ainsert]
  | cons hd tl ih =>
    obtain ⟨k0, v0⟩ := hd
    simp only [List.map_cons, List.mem_cons] at h
    push_neg at h
    have h1 : ¬ (k0 = k) := fun hh => h.1 hh.symm
    simp [ainsert, h1, ih h.2]

theorem length_ainsert_mem {K V : Type} [DecidableEq K] (l : List (K × V)) (k : K) (v : V)
    (h : k ∈ l.map Prod.fst) : (ainsert l k v).length = l.length := by
  have := keys_ainsert_mem l k v h
  have h1 : ((ainsert l k v).map Prod.fst).length = (l.map Prod.fst).length := by rw [this]
  simpa using h1

theorem length_ainsert_not_mem {K V : Type} [DecidableEq K] (l : List (K × V)) (k : K) (v : V)
    (h : k ∉ l.map Prod.fst) : (ainsert l k v).length = l.length + 1 := by
  have := keys_ainsert_not_mem l k v h
  have h1 : ((ainsert l k v).map Prod.fst).length = (l.map Prod.fst).length + 1 := by
    rw [this]; simp
  simpa using h1

/-! ## Name segments

Modelled from the spec: `pypet.pypetconstants` is not part of the given
sources.  The spec fixes the naming convention: run names are the token
`"run_"` plus the index zero-padded to a fixed width (hence injective in
the index), one reserved sentinel (`RUN_NAME_DUMMY`, the default/shared
branch, in the source rendered as a name that also starts with the
`"run_"` token) is distinct from every numeric run name, and ordinary
path segments are reserved from carrying the run token.  We embed this
alphabet of path segments as an inductive type, which keeps the
injectivity of the naming convention definitional. -/
inductive PName : Type where
  | runN : Nat → PName
  | dummy : PName
  | other : String → PName
deriving DecidableEq

/-- `pypetconstants.FORMATTED_RUN_NAME % idx` (modelled from the spec,
see `PName`). -/
def rn (i : Nat) : PName := PName.runN i

/-- `segment.startswith(pypetconstants.RUN_NAME)`: true for numeric run
names and for the dummy sentinel (both carry the `"run_"` token). -/
def PName.isRunSeg : PName → Bool
  | .runN _ => true
  | .dummy => true
  | .other _ => false

/-- A full name: the dot-separated path, as its list of segments. -/
abbrev Path := List PName

/-- `pypetconstants.RUN_NAME_DUMMY in full_name` (substring check on the
dotted name; under the reserved-segment convention of `PName` this is
membership of the dummy segment). -/
def containsDummy (p : Path) : Bool := p.contains PName.dummy

/-- `pypetconstants.RUN_NAME in full_name` (substring check on the
dotted name; under the reserved-segment convention of `PName` this is
"some segment carries the run token"). -/
def containsRunTok (p : Path) : Bool := p.any PName.isRunSeg

/-- `node.v_run_branch` (from `pypet.naturalnaming`, not in the given
sources; modelled from its use in `trajectory.py`): the run-scoped
branch a node hangs below, i.e. the first run-named segment of its full
name, or the `'trajectory'` sentinel if there is none. -/
def runBranch (p : Path) : PName :=
  (p.find? PName.isRunSeg).getD (PName.other "trajectory")

/-! ## Parameter leaves

Modelled from the spec (section 4.2 LeafEntity): `pypet.parameter` is
not part of the given sources.  A leaf holds a value (`default`, the
externally visible value before exploration), an optional exploration
range (explored iff the range is non-empty), a lock flag, and the
access index set by `setAccessIndex` / `_set_parameter_access`. -/
structure Param : Type where
  default : Int
  range : List Int
  locked : Bool
  access : Option Nat
deriving DecidableEq

/-- `param.f_has_range()`: explored iff `range` is non-empty (spec 3). -/
def Param.f_has_range (p : Param) : Bool := !p.range.isEmpty

/-- `param.f_get()` (modelled from the spec): with an access index set
and a range present, the value resolves to `range[access]`; otherwise
the pre-exploration default. -/
def Param.f_get (p : Param) : Int :=
  match p.access with
  | some i => if p.range.isEmpty then p.default else p.range.getD i p.default
  | none => p.default

/-- `len(param)` (modelled from the spec): one value per run when
explored, a single value otherwise. -/
def Param.plen (p : Param) : Nat := if p.range.isEmpty then 1 else p.range.length

/-- `param._explore(values)` (modelled from the spec): fails if already
explored or locked, else sets the range. -/
def Param._explore (p : Param) (vs : List Int) : Except String Param :=
  if p.locked then .error "ParameterLockedException"
  else if p.f_has_range then .error "TypeError: already explored"
  else .ok { p with range := vs }

/-- `param._expand(values)` (modelled from the spec): fails if locked or
not already explored, else appends to the range. -/
def Param._expand (p : Param) (vs : List Int) : Except String Param :=
  if p.locked then .error "ParameterLockedException"
  else if !p.f_has_range then .error "TypeError: not explored"
  else .ok { p with range := p.range ++ vs }

/-- `param.f_unlock()`. -/
def Param.f_unlock (p : Param) : Param := { p with locked := false }

/-- `param._restore_default()` (modelled from the spec): the externally
visible value becomes the pre-exploration one again. -/
def Param._restore_default (p : Param) : Param := { p with access := none }

/-- `param._set_parameter_access(idx)` (modelled from the spec). -/
def Param._set_parameter_access (p : Param) (i : Nat) : Param := { p with access := some i }

/-- `param._shrink()` (modelled from the spec): removes the exploration
range, the leaf is unexplored afterwards. -/
def Param._shrink (p : Param) : Param := { p with range := [] }

/-- The value of a leaf at run `i`: what
`_set_parameter_access(i)` followed by `f_get()` returns (the
functional rendering of that in-place mutate-then-read, used by the
deduplication loop of `_merge_parameters`). -/
def Param.valAt (p : Param) (i : Nat) : Int :=
  if p.range.isEmpty then p.default else p.range.getD i p.default

/-! ## The trajectory state -/

/-- One entry of `_run_information` (the fields the embedded operations
read; timestamps and summary strings are carried by the source but
never branched on by the embedded code paths). -/
structure RunInfo : Type where
  idx : Nat
  completed : Bool
deriving DecidableEq

/-- The trajectory state: the parameter leaves (`_parameters`, keyed by
full name), the keys of `_explored_parameters` (its values alias the
leaf objects, so the embedding keeps keys only and reads the store),
the run ledger (`_run_information` keyed by run name, and the two
halves of the bidirectional `_single_run_ids` dict: its int keys and
its str keys never collide, so the one Python dict splits into two
maps), the run cursor (`_idx`, `_crun`), and the serialization flags
(`_length_during_nfc`, `_full_copy`, `_stored`,
`_expansion_not_stored`, `_is_run`). -/
structure Traj : Type where
  params : List (Path × Param)
  explored : List Path
  runInformation : List (PName × RunInfo)
  runIdsIdx : List (Nat × PName)
  runIdsName : List (PName × Nat)
  idx : Int
  crun : Option PName
  lengthDuringNfc : Option Nat
  fullCopy : Bool
  stored : Bool
  expansionNotStored : Bool
  isRun : Bool
deriving DecidableEq

/-- `self._explored_parameters[name] = act_param`: only the key matters
in the embedding (the value aliases the store); a fresh key is
appended, an existing one left in place. -/
def addExplored (l : List Path) (k : Path) : List Path :=
  if k ∈ l then l else l ++ [k]

/-- `len(self)` (`__len__`, lines 983-990): the helper
`_length_during_nfc` wins when set, otherwise the number of run
records. -/
def Traj.len (t : Traj) : Nat := t.lengthDuringNfc.getD t.runInformation.length

/-- `_add_run_info(idx)` (lines 1188-1210): inserts the record and both
directions of the id map; the record starts not completed. -/
def _add_run_info (t : Traj) (i : Nat) : Traj :=
  { t with
    runIdsName := ainsert t.runIdsName (rn i) i
    runIdsIdx := ainsert t.runIdsIdx i (rn i)
    runInformation := ainsert t.runInformation (rn i) ⟨i, false⟩ }

/-- The run-ledger part of `__init__` (lines 260-301): empty registries,
one run record for index 0, no cursor (`_idx = -1`), nothing stored. -/
def freshTraj : Traj :=
  _add_run_info
    { params := []
      explored := []
      runInformation := []
      runIdsIdx := []
      runIdsName := []
      idx := -1
      crun := none
      lengthDuringNfc := none
      fullCopy := false
      stored := false
      expansionNotStored := false
      isRun := false } 0

/-- A fresh trajectory with the given parameter leaves added
(`f_add_parameter`: a new leaf holding a default value, unlocked,
unexplored). -/
def freshTrajWith (ps : List (Path × Int)) : Traj :=
  { freshTraj with
    params := ps.map (fun kv => (kv.1, ⟨kv.2, [], false, none⟩)) }

/-- `f_idx_to_run` (lines 2786-2803), index-to-name direction: the
int-keyed half of `_single_run_ids`; `none` models the `KeyError`. -/
def f_idx_to_run_name (t : Traj) (i : Nat) : Option PName := alookup t.runIdsIdx i

/-- `f_idx_to_run` (lines 2786-2803), name-to-index direction: the
str-keyed half of `_single_run_ids`; `none` models the `KeyError`. -/
def f_run_to_idx (t : Traj) (nm : PName) : Option Nat := alookup t.runIdsName nm

/-- `f_is_completed(0)` as used by the `f_explore` guard (lines
992-1013 with 2718-2733): an int argument misses the name-keyed record
dict, the handler converts it through `f_idx_to_run` and retries;
`none` models the `KeyError` of an unknown index. -/
def isCompletedIdx (t : Traj) (i : Nat) : Option Bool :=
  match f_idx_to_run_name t i with
  | none => none
  | some nm => (alookup t.runInformation nm).map RunInfo.completed

/-! ## Exploration and expansion -/

/-- The body of the `f_explore` loop (lines 1161-1183): look the key up,
explore the leaf with the given iterable (this mutation happens before
the length check), record it as explored, then derive/compare the
common length.  Returns the state, the running `length` local (Python
leaves it unbound when no branch assigned it, hence `Option`), and the
error if one was raised. -/
def exploreLoop (t : Traj) (count : Nat) (len? : Option Nat) :
    List (Path × List Int) → Traj × Option Nat × Option String
  | [] => (t, len?, none)
  | (key, vs) :: rest =>
    match alookup t.params key with
    | none => (t, len?, some "AttributeError")
    | some act =>
      match act._explore vs with
      | .error e => (t, len?, some e)
      | .ok act' =>
        let t' : Traj := { t with
          params := ainsert t.params key act'
          explored := addExplored t.explored key }
        let len' : Option Nat :=
          if count = 0 ∧ t'.len = 1 then some act'.plen
          else if t'.len > 1 then some t'.len
          else len?
        if len' = some act'.plen then exploreLoop t' (count + 1) len' rest
        else (t', len', some "ValueError: the parameters to explore have not the same size")

/-- `for irun in range(lo, lo + n): self._add_run_info(irun)`. -/
def addRunInfos (t : Traj) (lo n : Nat) : Traj :=
  (List.range' lo n).foldl _add_run_info t

/-- `f_explore(build_dict)` (lines 1085-1186): guard against an already
explored trajectory, run the exploration loop, then create the run
records `0 .. length-1`.  An unbound `length` local (empty dict) is the
`NameError` at `range(length)`. -/
def f_explore (t : Traj) (build : List (Path × List Int)) : Traj × Option String :=
  if t.isRun then (t, some "TypeError: not allowed during a single run")
  else
    match isCompletedIdx t 0 with
    | none => (t, some "KeyError")
    | some c =>
      if t.len > 1 ∨ t.explored ≠ [] ∨ c then
        (t, some "TypeError: cannot explore an already explored trajectory")
      else
        match exploreLoop t 0 none build with
        | (t', _, some e) => (t', some e)
        | (t', none, none) => (t', some "NameError: length")
        | (t', some length, none) => (addRunInfos t' 0 length, none)

/-- The body of the `f_expand` loop (lines 1047-1065): unlock (an
in-place mutation that survives a later raise), expand, record as
explored, compare lengths. -/
def expandLoop (t : Traj) (count : Nat) (len? : Option Nat) :
    List (Path × List Int) → Traj × Option Nat × Option String
  | [] => (t, len?, none)
  | (key, vs) :: rest =>
    match alookup t.params key with
    | none => (t, len?, some "AttributeError")
    | some act =>
      let act : Param := act.f_unlock
      let t0 : Traj := { t with params := ainsert t.params key act }
      match act._expand vs with
      | .error e => (t0, len?, some e)
      | .ok act' =>
        let t' : Traj := { t0 with
          params := ainsert t0.params key act'
          explored := addExplored t0.explored key }
        let len' : Option Nat := if count = 0 then some act'.plen else len?
        if len' = some act'.plen then expandLoop t' (count + 1) len' rest
        else (t', len', some "ValueError: the parameters to explore have not the same size")

/-- `f_expand(build_dict)` (lines 1015-1073): the key set must equal the
explored set, then the expansion loop runs and run records are appended
from the previous length up to the new one. -/
def f_expand (t : Traj) (build : List (Path × List Int)) : Traj × Option String :=
  if t.isRun then (t, some "TypeError: not allowed during a single run")
  else if build.any (fun kv => (alookup t.params kv.1).isNone) then
    (t, some "AttributeError")
  else if ¬ (t.explored.all (fun k => build.any (fun kv => kv.1 = k)) ∧
             build.all (fun kv => kv.1 ∈ t.explored)) then
    (t, some "TypeError: you have to enlarge dimensions you have explored before")
  else
    match expandLoop t 0 none build with
    | (t', _, some e) => (t', some e)
    | (t', none, none) => (t', some "NameError: length")
    | (t', some length, none) =>
      let t'' := addRunInfos t' t'.len (length - t'.len)
      ({ t'' with expansionNotStored := t''.stored || t''.expansionNotStored }, none)

/-- `for param in <keys>: <mutate the leaf in place>`: the common shape
of every loop that walks a set of parameter names and rewrites the
found leaves in the store (keys that miss the store are skipped, as the
aliased dict entries then do not exist). -/
def mapExplored (ps : List (Path × Param)) (ks : List Path) (g : Param → Param) :
    List (Path × Param) :=
  ks.foldl
    (fun ps k =>
      match alookup ps k with
      | some p => ainsert ps k (g p)
      | none => ps) ps

/-- `f_shrink` (lines 742-763): refuse when stored, unlock and shrink
every explored leaf, erase the ledger, re-create the record for
index 0. -/
def f_shrink (t : Traj) : Traj × Option String :=
  if t.isRun then (t, some "TypeError: not allowed during a single run")
  else if t.stored then (t, some "TypeError: already stored, shrinking is not allowed")
  else
    (_add_run_info
      { t with
        params := mapExplored t.params t.explored (fun p => p.f_unlock._shrink)
        explored := []
        runInformation := []
        runIdsIdx := []
        runIdsName := [] } 0, none)

/-! ## Run cursor -/

/-- The argument of `f_set_crun`: a run name or an integer index. -/
inductive NameOrIdx : Type where
  | name : PName → NameOrIdx
  | idx : Int → NameOrIdx
deriving DecidableEq

/-- The body of `f_restore_default` (lines 2625-2632): cursor back to
-1/None and every explored leaf back to its pre-exploration value. -/
def f_restore_default_core (t : Traj) : Traj :=
  { t with
    idx := -1
    crun := none
    params := mapExplored t.params t.explored Param._restore_default }

/-- `f_restore_default` with its `@not_in_run` guard. -/
def f_restore_default (t : Traj) : Traj × Option String :=
  if t.isRun then (t, some "TypeError: not allowed during a single run")
  else (f_restore_default_core t, none)

/-- `_set_explored_parameters_to_idx(idx)` (lines 2634-2640). -/
def _set_explored_parameters_to_idx (t : Traj) (i : Nat) : Traj :=
  { t with
    params := mapExplored t.params t.explored (fun p => p._set_parameter_access i) }

/-- `f_set_crun(name_or_idx)` (lines 568-608): `None`, the dummy name or
-1 restore the default view; a name resolves to its index (and vice
versa) through `_single_run_ids`, the cursor is set and every explored
leaf is pointed at the run's slot. -/
def f_set_crun (t : Traj) (a : Option NameOrIdx) : Traj × Option String :=
  if t.isRun then (t, some "TypeError: not allowed during a single run")
  else
    match a with
    | none => (f_restore_default_core t, none)
    | some (.name nm) =>
      if nm = PName.dummy then (f_restore_default_core t, none)
      else
        match f_run_to_idx t nm with
        | none => (t, some "KeyError")
        | some i =>
          (_set_explored_parameters_to_idx { t with idx := (i : Int), crun := some nm } i, none)
    | some (.idx j) =>
      if j = -1 then (f_restore_default_core t, none)
      else
        match (if 0 ≤ j then f_idx_to_run_name t j.toNat else none) with
        | none => (t, some "KeyError")
        | some nm =>
          (_set_explored_parameters_to_idx { t with idx := j, crun := some nm } j.toNat, none)

/-- `f_get_run_names(sort=True)` (lines 2650-2665): the names of
indices `0 .. len-1` in index order; `none` models the `KeyError` of a
broken id map. -/
def f_get_run_names_sorted (t : Traj) : Option (List PName) :=
  (List.range t.len).mapM (f_idx_to_run_name t)

/-- The loop of `f_iter_runs` (lines 645-650): set the cursor to each
run name in turn (collecting the yielded names), then restore the
default view.  On a raise the names yielded so far are kept. -/
def iterRunsLoop (t : Traj) (acc : List PName) :
    List PName → Traj × List PName × Option String
  | [] =>
    match f_set_crun t none with
    | (t', e) => (t', acc, e)
  | nm :: rest =>
    match f_set_crun t (some (.name nm)) with
    | (t', none) => iterRunsLoop t' (acc ++ [nm]) rest
    | (t', some e) => (t', acc, some e)

/-- `f_iter_runs` (lines 610-650), run to exhaustion: the full list of
yielded run names together with the final trajectory state. -/
def f_iter_runs (t : Traj) : Traj × List PName × Option String :=
  if t.isRun then (t, [], some "TypeError: not allowed during a single run")
  else
    match f_get_run_names_sorted t with
    | none => (t, [], some "KeyError")
    | some names => iterRunsLoop t [] names

/-! ## Pickling shape -/

/-- `__getstate__` (lines 335-350): without `v_full_copy`, a selected
run keeps only its own record and id-map entries, and the helper
`_length_during_nfc` — when not already set — is filled with `len(self)`
of the still-unmodified full trajectory.  (Removal of the logger from
the state dict is outside the model.) -/
def getstate (t : Traj) : Traj × Option String :=
  if ¬ t.fullCopy then
    if t.idx ≠ -1 then
      match (if 0 ≤ t.idx then f_idx_to_run_name t t.idx.toNat else none) with
      | none => (t, some "KeyError")
      | some runname =>
        match alookup t.runInformation runname with
        | none => (t, some "KeyError")
        | some ri =>
          let r := { t with
            runInformation := [(runname, ri)]
            runIdsIdx := [(t.idx.toNat, runname)]
            runIdsName := [(runname, t.idx.toNat)] }
          (if t.lengthDuringNfc = none then { r with lengthDuringNfc := some t.len } else r,
           none)
    else
      (if t.lengthDuringNfc = none then { t with lengthDuringNfc := some t.len } else t, none)
  else (t, none)

/-- `__setstate__` (lines 352-354): the restored trajectory is the state
dict itself (only the logger is re-attached, which is outside the
model). -/
def setstate (state : Traj) : Traj := state

/-! ## The merge engine -/

/-- Python `set(range(n))` over `Int` (empty for `n ≤ 0`), the contiguity
yardstick of the trial-parameter sanity check. -/
def pyRangeSet (n : Int) : Finset Int :=
  (Finset.range n.toNat).image (fun k : Nat => (k : Int))

theorem mem_pyRangeSet (n x : Int) : x ∈ pyRangeSet n ↔ 0 ≤ x ∧ x < n := by
  simp only [pyRangeSet, Finset.mem_image, Finset.mem_range]
  constructor
  · rintro ⟨k, hk, rfl⟩
    omega
  · rintro ⟨h0, h1⟩
    exact ⟨x.toNat, by omega, by omega⟩

/-- Python `max(values)` for a non-empty list. -/
def listMaxI (l : List Int) : Int := l.foldl max (l.headD 0)

/-- `(x for run, x in zip(use_runs, range) if run)` (lines 2488-2489):
the other trajectory's range filtered down to the retained runs. -/
def filterByUse (use : List Bool) (xs : List Int) : List Int :=
  ((use.zip xs).filter (fun p => p.1)).map (fun p => p.2)

/-- `int(sum(use_runs))` (line 2473). -/
def countTrue (use : List Bool) : Nat := (use.filter (fun b => b)).length

/-- The marking loop of `_merge_parameters` (lines 2402-2428): iterate
the other trajectory's parameters, skip run-scoped names and the trial
parameter, mark every pair that is explored somewhere or differs in its
defaults, and switch deduplication off when an unexplored pair differs.
(The `_values_of_same_type` check of line 2409 is vacuous in the
single-value-kind model; derived parameters of the trajectory branch —
gathered only when `ignore_trajectory_derived_parameters` is unset —
are outside the modelled store, so the embedding covers the
`ignore_trajectory_derived_parameters=True` shape of the call.) -/
def markLoop (self : Traj) (trialName : Option Path) :
    List (Path × Param) → Bool → List (Path × Param × Param) →
    Bool × List (Path × Param × Param) × Option String
  | [], rd, ptc => (rd, ptc, none)
  | (key, otherParam) :: rest, rd, ptc =>
    if containsRunTok key then markLoop self trialName rest rd ptc
    else
      match alookup self.params key with
      | none => (rd, ptc, some "AttributeError")
      | some myParam =>
        if some key = trialName then markLoop self trialName rest rd ptc
        else if myParam.f_has_range || otherParam.f_has_range ||
                !(decide (myParam.f_get = otherParam.f_get)) then
          let rd' := if !myParam.f_has_range && !otherParam.f_has_range then false else rd
          markLoop self trialName rest rd' (ptc ++ [(key, myParam, otherParam)])
        else markLoop self trialName rest rd ptc

/-- One point-to-point comparison of the deduplication loop (lines
2439-2456): the j-th point of the current trajectory equals the i-th
point of the other one on every marked parameter. -/
def runsMatch (ptc : List (Path × Param × Param)) (j i : Nat) : Bool :=
  ptc.all (fun e => decide (e.2.1.valAt j = e.2.2.valAt i))

/-- The deduplication loop of `_merge_parameters` (lines 2437-2464):
a run of the other trajectory is kept iff no run of the current one
matches it. -/
def computeUseRuns (ptc : List (Path × Param × Param)) (lenOther lenSelf : Nat) : List Bool :=
  (List.range lenOther).map (fun irun =>
    !((List.range lenSelf).any (fun jrun => runsMatch ptc jrun irun)))

/-- Lines 2466-2469: after deduplication the marked parameters of the
current trajectory get their default view back (the other trajectory's
leaves are restored likewise; the embedding tracks the current
trajectory). -/
def restoreMarked (self : Traj) (ptc : List (Path × Param × Param)) : Traj :=
  { self with
    params := mapExplored self.params (ptc.map (fun e => e.1)) Param._restore_default }

/-- The range-extension loop of `_merge_parameters` (lines 2477-2508):
for every marked parameter build the other-side extension (trial-shifted
/ filtered / replicated default), explore an unexplored current-side
leaf with `len(self)` copies of its default first, then expand it and
record it as explored.  `shift` is `mymaxtrial_T1 + 1`. -/
def extendLoop (self : Traj) (useRuns : List Bool) (addingLength : Nat)
    (trialName : Option Path) (shift : Int) (otherTrialList : List Int) :
    List (Path × Param × Param) → Traj × Option String
  | [] => (self, none)
  | (fullname, _, otherParam) :: rest =>
    match alookup self.params fullname with
    | none => (self, some "AttributeError")
    | some myParam0 =>
      let otherRange : List Int :=
        if some fullname = trialName then otherTrialList.map (fun x => x + shift)
        else if otherParam.f_has_range then filterByUse useRuns otherParam.range
        else List.replicate addingLength otherParam.f_get
      match (if myParam0.f_has_range then Except.ok myParam0
             else (myParam0.f_unlock)._explore
               (List.replicate self.len myParam0.f_get)) with
      | .error e =>
        ({ self with params := ainsert self.params fullname myParam0.f_unlock }, some e)
      | .ok myParam1 =>
        match (myParam1.f_unlock)._expand otherRange with
        | .error e =>
          ({ self with params := ainsert self.params fullname myParam1.f_unlock }, some e)
        | .ok myParam2 =>
          extendLoop
            { self with
              params := ainsert self.params fullname myParam2
              explored := addExplored self.explored fullname }
            useRuns addingLength trialName shift otherTrialList rest

/-- The result of `_merge_parameters`: the mutated current trajectory,
the keep/skip vector over the other trajectory's runs, the names of the
parameters marked for change, and a raised error if any. -/
structure MergeParamsResult : Type where
  self : Traj
  useRuns : List Bool
  changed : List Path
  err : Option String
deriving DecidableEq

/-- `_merge_parameters` after the trial-parameter preamble (lines
2391-2508): mark, optionally deduplicate (restoring default views
afterwards), return early with every run discarded, or extend the
marked ranges. -/
def mergeParametersRest (self other : Traj) (removeDuplicates : Bool)
    (trialName : Option Path) (shift : Int) (otherTrialList : List Int)
    (ptc0 : List (Path × Param × Param)) : MergeParamsResult :=
  match markLoop self trialName other.params removeDuplicates ptc0 with
  | (_, _, some e) => ⟨self, [], [], some e⟩
  | (rd, ptc, none) =>
    let useRuns := if rd then computeUseRuns ptc other.len self.len
                   else List.replicate other.len true
    let self1 := if rd then restoreMarked self ptc else self
    let addingLength := countTrue useRuns
    if addingLength = 0 then ⟨self1, useRuns, [], none⟩
    else
      match extendLoop self1 useRuns addingLength trialName shift otherTrialList ptc with
      | (self2, some e) => ⟨self2, useRuns, ptc.map (fun e => e.1), some e⟩
      | (self2, none) => ⟨self2, useRuns, ptc.map (fun e => e.1), none⟩

/-- `_merge_parameters` (lines 2298-2508).  A given trial parameter
disables deduplication (lines 2325-2330) and must be contiguous from
zero on both sides (lines 2339-2389, `set(range(max+1))` equality);
the trial pair is pre-marked and the current side pre-recorded as
explored (lines 2385-2389). -/
def mergeParameters (self other : Traj) (removeDuplicates : Bool)
    (trialName : Option Path) : MergeParamsResult :=
  let rd := if trialName.isSome then false else removeDuplicates
  match trialName with
  | some tp =>
    match alookup self.params tp, alookup other.params tp with
    | none, _ => ⟨self, [], [], some "AttributeError"⟩
    | some _, none => ⟨self, [], [], some "AttributeError"⟩
    | some myTrial, some otherTrial =>
      let myTrialList := if myTrial.f_has_range then myTrial.range else [myTrial.f_get]
      let otherTrialList := if otherTrial.f_has_range then otherTrial.range
                            else [otherTrial.f_get]
      let t1 := listMaxI myTrialList
      if myTrialList.toFinset ≠ pyRangeSet (t1 + 1) then
        ⟨self, [], [], some "TypeError: the trial parameter must contain integers from 0 to T1"⟩
      else
        let t2 := listMaxI otherTrialList
        if otherTrialList.toFinset ≠ pyRangeSet (t2 + 1) then
          ⟨self, [], [],
           some "TypeError: the trial parameter must contain integers from 0 to T2 in the other trajectory"⟩
        else
          mergeParametersRest { self with explored := addExplored self.explored tp }
            other rd (some tp) (t1 + 1) otherTrialList [(tp, myTrial, otherTrial)]
  | none => mergeParametersRest self other rd none 0 [] []

/-- The ledger part of the `_merge_single_runs` loop (lines 2161-2203):
every retained run of the other trajectory gets the next sequential
run name in the current one, its record copied over with the fresh
index, both id-map directions updated, and an entry in the rename map.
(The skeleton re-creation of the run's result/derived-parameter nodes,
lines 2166-2246, goes through the storage collaborator and group tree
and is outside the modelled store.) -/
def mergeRunsLoop (self other : Traj) (useRuns : List Bool) :
    Nat → List (PName × PName) → List PName →
    Traj × List (PName × PName) × Option String
  | _, acc, [] => (self, acc, none)
  | count, acc, runName :: rest =>
    match alookup other.runInformation runName with
    | none => (self, acc, some "KeyError")
    | some ri =>
      match useRuns[ri.idx]? with
      | none => (self, acc, some "IndexError")
      | some b =>
        if b then
          let newRunname := rn count
          mergeRunsLoop
            { self with
              runInformation := ainsert self.runInformation newRunname ⟨count, ri.completed⟩
              runIdsIdx := ainsert self.runIdsIdx count newRunname
              runIdsName := ainsert self.runIdsName newRunname count }
            other useRuns (count + 1) (acc ++ [(runName, newRunname)]) rest
        else mergeRunsLoop self other useRuns count acc rest

/-- `_merge_single_runs` (lines 2152-2248), ledger part: the counter
starts at `len(self)` and walks the other trajectory's sorted run
names. -/
def mergeSingleRuns (self other : Traj) (useRuns : List Bool) :
    Traj × List (PName × PName) × Option String :=
  match f_get_run_names_sorted other with
  | none => (self, [], some "KeyError")
  | some runNames => mergeRunsLoop self other useRuns self.len [] runNames

/-! ## Link remapping -/

/-- `_rename_key(key, pos_list, new_name)` (lines 2251-2265):
substitute the new name at the given positions of the dotted path. -/
def _rename_key (key : Path) (posList : List Nat) (newName : PName) : Path :=
  key.enum.map (fun p => if p.1 ∈ posList then newName else p.2)

/-- The `pos_list` computation of `_merge_links` (lines 1909-1912 and
1929-1932): the positions of the path segments carrying the run
token. -/
def runPosList (p : Path) : List Nat :=
  (p.enum.filter (fun q => q.2.isRunSeg)).map (fun q => q.1)

/-- Lines 1908-1917 and 1928-1937: a path whose run branch is in the
rename map gets every run segment substituted with the new run name,
any other path is kept. -/
def renameByRunDict (runNameDict : List (PName × PName)) (p : Path) : Path :=
  match alookup runNameDict (runBranch p) with
  | some newRun => _rename_key p (runPosList p) newRun
  | none => p

/-- The group/link state of the current trajectory as far as
`_merge_links` touches it: the set of resolvable full names and the
links each node holds (`f_get`/`f_contains` are exact-path lookups
here, as `_merge_links` passes `shortcuts=False`). -/
structure LinkWorld : Type where
  nodes : List Path
  links : List (Path × PName × Path)
deriving DecidableEq

/-- The innermost loop body of `_merge_links` (lines 1939-1967): skip a
dummy-named link; resolve the renamed target (a failure is caught,
logged and skipped); fetch or create the linking group; rename the
link itself if it is a run name of the rename map; add the link unless
that name already exists there. -/
def processLink (w : LinkWorld) (warns : List String)
    (runNameDict : List (PName × PName)) (newLinkedName newLinkingName : Path)
    (link : PName) : LinkWorld × List String :=
  if link = PName.dummy then
    (w, warns ++ ["ignoring dummy-named link"])
  else if newLinkedName ∈ w.nodes then
    let w1 : LinkWorld :=
      if newLinkingName ∈ w.nodes then w
      else { w with nodes := w.nodes ++ [newLinkingName] }
    let link' := match alookup runNameDict link with
                 | some l => l
                 | none => link
    if w1.links.any (fun e => decide (e.1 = newLinkingName) && decide (e.2.1 = link')) then
      (w1, warns)
    else
      ({ w1 with links := w1.links ++ [(newLinkingName, link', newLinkedName)] }, warns)
  else
    (w, warns ++ ["could not copy link"])

/-- The middle loop body of `_merge_links` (lines 1919-1937): a linking
node under the dummy branch is logged — and, in this source, NOT
skipped: the loop falls through and still processes its links — then
the linking path is renamed if its run branch was renumbered. -/
def processLinkingNode (w : LinkWorld) (warns : List String)
    (runNameDict : List (PName × PName)) (newLinkedName : Path)
    (linkingFullName : Path) (linkSet : List PName) : LinkWorld × List String :=
  let warns :=
    if containsDummy linkingFullName then warns ++ ["ignoring links under dummy node"]
    else warns
  let newLinkingName := renameByRunDict runNameDict linkingFullName
  linkSet.foldl
    (fun st link => processLink st.1 st.2 runNameDict newLinkedName newLinkingName link)
    (w, warns)

/-- The outer loop body of `_merge_links` (lines 1900-1917): a linked
(target) name under the dummy branch is logged and skipped with
`continue`; otherwise the target path is renamed if its run branch was
renumbered and all linking nodes are processed. -/
def processLinkedEntry (runNameDict : List (PName × PName))
    (st : LinkWorld × List String) (entry : Path × List (Path × List PName)) :
    LinkWorld × List String :=
  if containsDummy entry.1 then (st.1, st.2 ++ ["ignoring links to dummy target"])
  else
    let newLinkedName := renameByRunDict runNameDict entry.1
    entry.2.foldl
      (fun st2 ln => processLinkingNode st2.1 st2.2 runNameDict newLinkedName ln.1 ln.2)
      st

/-- `_merge_links(other_trajectory, run_name_dict)` (lines 1895-1967)
over the other trajectory's `_linked_by` registry (target name mapped
to its linking nodes and their link names).  Diagnostics are collected;
no failure aborts the walk. -/
def _merge_links (w : LinkWorld) (otherLinkedBy : List (Path × List (Path × List PName)))
    (runNameDict : List (PName × PName)) : LinkWorld × List String :=
  otherLinkedBy.foldl (processLinkedEntry runNameDict) (w, [])

/-- The in-memory core of `f_merge` (lines 1652-1844), the steps that
mutate the parameter store, the run ledger and the links:
`_merge_parameters` (line 1755), the discards-all-runs guard (lines
1765-1767), `_merge_single_runs` (line 1783) and `_merge_links` (line
1837).  Backup, `keep_info` config bookkeeping, trajectory-level
result/derived-parameter copying and every storage-service call are
external-collaborator work outside the model, and
`_check_if_both_have_same_parameters` is vacuous for stores with equal
key sets in the single-value-kind model (its key-set equality is a
precondition of the theorems below). -/
def f_merge_core (self other : Traj) (selfLinks : LinkWorld)
    (otherLinkedBy : List (Path × List (Path × List PName)))
    (removeDuplicates : Bool) (trialName : Option Path) :
    Traj × LinkWorld × List String × Option String :=
  if self.isRun then (self, selfLinks, [], some "TypeError: not allowed during a single run")
  else
    let r := mergeParameters self other removeDuplicates trialName
    match r.err with
    | some e => (r.self, selfLinks, [], some e)
    | none =>
      if r.useRuns.all (fun b => !b) then
        (r.self, selfLinks, [],
         some "ValueError: your merge discards all runs of the other trajectory")
      else
        match mergeSingleRuns r.self other r.useRuns with
        | (self2, _, some e) => (self2, selfLinks, [], some e)
        | (self2, runNameDict, none) =>
          let wl := _merge_links selfLinks otherLinkedBy runNameDict
          (self2, wl.1, wl.2, none)

/-! ## Helper lemmas about the store and the ledger -/

theorem rn_inj {i j : Nat} : rn i = rn j ↔ i = j := by
  constructor
  · intro h
    cases h
    rfl
  · intro h
    rw [h]

theorem mem_keys_ainsert_self {K V : Type} [DecidableEq K] (l : List (K × V)) (k : K) (v : V) :
    k ∈ (ainsert l k v).map Prod.fst := by
  by_cases h : k ∈ l.map Prod.fst
  · rw [keys_ainsert_mem l k v h]
    exact h
  · rw [keys_ainsert_not_mem l k v h]
    simp

theorem mem_keys_ainsert_of_mem {K V : Type} [DecidableEq K] (l : List (K × V)) (k k' : K)
    (v : V) (h : k' ∈ l.map Prod.fst) : k' ∈ (ainsert l k v).map Prod.fst := by
  by_cases hk : k ∈ l.map Prod.fst
  · rw [keys_ainsert_mem l k v hk]
    exact h
  · rw [keys_ainsert_not_mem l k v hk]
    exact List.mem_append_left _ h

theorem length_ainsert_ge {K V : Type} [DecidableEq K] (l : List (K × V)) (k : K) (v : V) :
    l.length ≤ (ainsert l k v).length := by
  by_cases h : k ∈ l.map Prod.fst
  · rw [length_ainsert_mem l k v h]
  · rw [length_ainsert_not_mem l k v h]
    omega

theorem mem_rn_range {i m : Nat} : rn i ∈ (List.range m).map rn ↔ i < m := by
  simp only [List.mem_map, List.mem_range]
  constructor
  · rintro ⟨j, hj, hji⟩
    rwa [← rn_inj.mp hji.symm] at hj
  · intro h
    exact ⟨i, h, rfl⟩

theorem runIdsIdx_add_run_info (t : Traj) (i j : Nat) :
    alookup (_add_run_info t i).runIdsIdx j =
      if j = i then some (rn i) else alookup t.runIdsIdx j := by
  by_cases h : j = i
  · subst h
    simp [_add_run_info, alookup_ainsert]
  · simp [_add_run_info, alookup_ainsert_ne _ _ _ _ h, h]

theorem runIdsName_add_run_info (t : Traj) (i : Nat) (nm : PName) :
    alookup (_add_run_info t i).runIdsName nm =
      if nm = rn i then some i else alookup t.runIdsName nm := by
  by_cases h : nm = rn i
  · subst h
    simp [_add_run_info, alookup_ainsert]
  · simp [_add_run_info, alookup_ainsert_ne _ _ _ _ h, h]

theorem runInformation_add_run_info (t : Traj) (i : Nat) (nm : PName) :
    alookup (_add_run_info t i).runInformation nm =
      if nm = rn i then some ⟨i, false⟩ else alookup t.runInformation nm := by
  by_cases h : nm = rn i
  · subst h
    simp [_add_run_info, alookup_ainsert]
  · simp [_add_run_info, alookup_ainsert_ne _ _ _ _ h, h]

theorem add_run_info_untouched (t : Traj) (i : Nat) :
    (_add_run_info t i).params = t.params ∧
    (_add_run_info t i).explored = t.explored ∧
    (_add_run_info t i).lengthDuringNfc = t.lengthDuringNfc ∧
    (_add_run_info t i).isRun = t.isRun := by
  simp [_add_run_info]

theorem addRunInfos_zero (t : Traj) (lo : Nat) : addRunInfos t lo 0 = t := by
  simp [addRunInfos]

theorem addRunInfos_succ (t : Traj) (lo n : Nat) :
    addRunInfos t lo (n + 1) = addRunInfos (_add_run_info t lo) (lo + 1) n := by
  simp [addRunInfos, List.range'_succ]

theorem runIdsIdx_addRunInfos (t : Traj) (lo n j : Nat) :
    alookup (addRunInfos t lo n).runIdsIdx j =
      if lo ≤ j ∧ j < lo + n then some (rn j) else alookup t.runIdsIdx j := by
  induction n generalizing t lo with
  | zero => rw [addRunInfos_zero, if_neg (by omega)]
  | succ n ih =>
    rw [addRunInfos_succ, ih, runIdsIdx_add_run_info]
    by_cases h1 : lo + 1 ≤ j ∧ j < lo + 1 + n
    · rw [if_pos h1, if_pos (by omega)]
    · rw [if_neg h1]
      by_cases h2 : j = lo
      · rw [if_pos h2, if_pos (by omega), h2]
      · rw [if_neg h2, if_neg (by omega)]

theorem runIdsName_addRunInfos_out (t : Traj) (lo n : Nat) (nm : PName)
    (h : ∀ j, lo ≤ j → j < lo + n → nm ≠ rn j) :
    alookup (addRunInfos t lo n).runIdsName nm = alookup t.runIdsName nm := by
  induction n generalizing t lo with
  | zero => rw [addRunInfos_zero]
  | succ n ih =>
    rw [addRunInfos_succ, ih _ _ (fun j h1 h2 => h j (by omega) (by omega)),
      runIdsName_add_run_info, if_neg (h lo (by omega) (by omega))]

theorem runIdsName_addRunInfos_in (t : Traj) (lo n j : Nat) (h : lo ≤ j ∧ j < lo + n) :
    alookup (addRunInfos t lo n).runIdsName (rn j) = some j := by
  induction n generalizing t lo with
  | zero => omega
  | succ n ih =>
    rw [addRunInfos_succ]
    by_cases h1 : lo + 1 ≤ j ∧ j < lo + 1 + n
    · exact ih _ _ h1
    · have hj : j = lo := by omega
      rw [runIdsName_addRunInfos_out _ _ _ _
        (fun j' h1' h2' hc => by have := rn_inj.mp hc; omega),
        runIdsName_add_run_info, if_pos (by rw [hj]), hj]

theorem runInformation_addRunInfos_out (t : Traj) (lo n : Nat) (nm : PName)
    (h : ∀ j, lo ≤ j → j < lo + n → nm ≠ rn j) :
    alookup (addRunInfos t lo n).runInformation nm = alookup t.runInformation nm := by
  induction n generalizing t lo with
  | zero => rw [addRunInfos_zero]
  | succ n ih =>
    rw [addRunInfos_succ, ih _ _ (fun j h1 h2 => h j (by omega) (by omega)),
      runInformation_add_run_info, if_neg (h lo (by omega) (by omega))]

theorem runInformation_addRunInfos_in (t : Traj) (lo n j : Nat) (h : lo ≤ j ∧ j < lo + n) :
    alookup (addRunInfos t lo n).runInformation (rn j) = some ⟨j, false⟩ := by
  induction n generalizing t lo with
  | zero => omega
  | succ n ih =>
    rw [addRunInfos_succ]
    by_cases h1 : lo + 1 ≤ j ∧ j < lo + 1 + n
    · exact ih _ _ h1
    · have hj : j = lo := by omega
      rw [runInformation_addRunInfos_out _ _ _ _
        (fun j' h1' h2' hc => by have := rn_inj.mp hc; omega),
        runInformation_add_run_info, if_pos (by rw [hj]), hj]

theorem keys_add_run_info (t : Traj) (i m : Nat) (him : i ≤ m)
    (h : t.runInformation.map Prod.fst = (List.range m).map rn) :
    (_add_run_info t i).runInformation.map Prod.fst = (List.range (max m (i + 1))).map rn := by
  show (ainsert t.runInformation (rn i) ⟨i, false⟩).map Prod.fst = _
  by_cases hlt : i < m
  · have hmem : rn i ∈ t.runInformation.map Prod.fst := by
      rw [h]
      exact mem_rn_range.mpr hlt
    rw [keys_ainsert_mem _ _ _ hmem, h]
    congr 2
    omega
  · have hi : i = m := by omega
    have hmem : rn i ∉ t.runInformation.map Prod.fst := by
      rw [h]
      intro hc
      have := mem_rn_range.mp hc
      omega
    rw [keys_ainsert_not_mem _ _ _ hmem, h]
    have hmax : max m (i + 1) = m + 1 := by omega
    rw [hmax, List.range_succ, List.map_append, hi]
    simp

theorem keys_addRunInfos (t : Traj) (lo n m : Nat) (hlo : lo ≤ m)
    (h : t.runInformation.map Prod.fst = (List.range m).map rn) :
    (addRunInfos t lo n).runInformation.map Prod.fst =
      (List.range (max m (lo + n))).map rn := by
  induction n generalizing t lo m with
  | zero =>
    rw [addRunInfos_zero, h]
    congr 2
    omega
  | succ n ih =>
    rw [addRunInfos_succ, ih _ _ (max m (lo + 1)) (by omega) (keys_add_run_info t lo m hlo h)]
    congr 2
    omega

theorem addRunInfos_untouched (t : Traj) (lo n : Nat) :
    (addRunInfos t lo n).params = t.params ∧
    (addRunInfos t lo n).explored = t.explored ∧
    (addRunInfos t lo n).lengthDuringNfc = t.lengthDuringNfc ∧
    (addRunInfos t lo n).isRun = t.isRun := by
  induction n generalizing t lo with
  | zero => simp [addRunInfos_zero]
  | succ n ih =>
    rw [addRunInfos_succ]
    have h := ih (_add_run_info t lo) (lo + 1)
    simpa [_add_run_info] using h

/-- The consistency of the run ledger for length `L`: `__len__` is
backed by the records (no narrow-copy helper), there are exactly the
records for the names of indices `0 .. L-1`, and `_single_run_ids`
resolves every such index to its formatted name and back, with the
record carrying the index.  This is the spec's "total bijection over
[0, L)" of the index-name map. -/
def LedgerOK (t : Traj) (L : Nat) : Prop :=
  t.lengthDuringNfc = none ∧
  t.runInformation.map Prod.fst = (List.range L).map rn ∧
  ∀ i, i < L →
    f_idx_to_run_name t i = some (rn i) ∧
    f_run_to_idx t (rn i) = some i ∧
    (alookup t.runInformation (rn i)).map RunInfo.idx = some i

theorem LedgerOK.len_eq {t : Traj} {L : Nat} (h : LedgerOK t L) : t.len = L := by
  obtain ⟨h1, h2, _⟩ := h
  have : t.runInformation.length = L := by
    have := congrArg List.length h2
    simpa using this
  simp [Traj.len, h1, this]

/-! ## Frame lemmas for exploration -/

theorem len_update_params_explored (t : Traj) (ps : List (Path × Param)) (ex : List Path) :
    Traj.len { t with params := ps, explored := ex } = t.len := rfl

theorem exploreLoop_frame (build : List (Path × List Int)) :
    ∀ (t : Traj) (count : Nat) (len? : Option Nat),
    (exploreLoop t count len? build).1.runInformation = t.runInformation ∧
    (exploreLoop t count len? build).1.lengthDuringNfc = t.lengthDuringNfc ∧
    (exploreLoop t count len? build).1.runIdsIdx = t.runIdsIdx ∧
    (exploreLoop t count len? build).1.runIdsName = t.runIdsName ∧
    (exploreLoop t count len? build).1.isRun = t.isRun := by
  induction build with
  | nil =>
    intro t count len?
    simp [exploreLoop]
  | cons kv rest ih =>
    intro t count len?
    obtain ⟨key, vs⟩ := kv
    simp only [exploreLoop]
    repeat' split
    all_goals first
      | exact ih _ _ _
      | simp

theorem expandLoop_frame (build : List (Path × List Int)) :
    ∀ (t : Traj) (count : Nat) (len? : Option Nat),
    (expandLoop t count len? build).1.runInformation = t.runInformation ∧
    (expandLoop t count len? build).1.lengthDuringNfc = t.lengthDuringNfc ∧
    (expandLoop t count len? build).1.runIdsIdx = t.runIdsIdx ∧
    (expandLoop t count len? build).1.runIdsName = t.runIdsName ∧
    (expandLoop t count len? build).1.isRun = t.isRun := by
  induction build with
  | nil =>
    intro t count len?
    simp [expandLoop]
  | cons kv rest ih =>
    intro t count len?
    obtain ⟨key, vs⟩ := kv
    simp only [expandLoop]
    repeat' split
    all_goals first
      | exact ih _ _ _
      | simp

theorem len_eq_of_frame {t t' : Traj} (h1 : t'.runInformation = t.runInformation)
    (h2 : t'.lengthDuringNfc = t.lengthDuringNfc) : t'.len = t.len := by
  simp [Traj.len, h1, h2]

theorem addExplored_not_mem (l : List Path) (k : Path) (h : k ∉ l) :
    addExplored l k = l ++ [k] := by
  simp [addExplored, h]

theorem exploreLoop_step (t : Traj) (count n : Nat) (key : Path) (vs : List Int)
    (rest : List (Path × List Int)) (p : Param)
    (hp : alookup t.params key = some p) (hpr : p.range = []) (hpl : p.locked = false)
    (hcount : count ≠ 0) (htlen : t.len = 1) (hvs : vs.length = n) (hn : 1 ≤ n) :
    exploreLoop t count (some n) ((key, vs) :: rest) =
      exploreLoop
        { t with params := ainsert t.params key { p with range := vs },
                 explored := addExplored t.explored key } (count + 1) (some n) rest := by
  have hvsne : vs ≠ [] := by
    intro h
    rw [h] at hvs
    simp at hvs
    omega
  have hexplore : p._explore vs = Except.ok { p with range := vs } := by
    simp [Param._explore, hpl, Param.f_has_range, hpr]
  have hplen : Param.plen { p with range := vs } = n := by
    cases vs with
    | nil => exact absurd rfl hvsne
    | cons a l => simpa [Param.plen] using hvs
  simp only [exploreLoop, hp, hexplore, len_update_params_explored, htlen]
  rw [if_neg (show ¬ (count = 0 ∧ True) from fun hc => hcount hc.1)]
  rw [if_neg (show ¬ ((1 : Nat) > 1) from by omega)]
  rw [if_pos (show some n = some (Param.plen { p with range := vs }) from by rw [hplen])]

theorem exploreLoop_ok (build : List (Path × List Int)) :
    ∀ (t : Traj) (count : Nat) (n : Nat),
    1 ≤ n → t.len = 1 → 1 ≤ count →
    (∀ kv ∈ build, (kv.2 : List Int).length = n) →
    (build.map Prod.fst).Nodup →
    (∀ kv ∈ build, kv.1 ∉ t.explored) →
    (∀ kv ∈ build, ∃ p : Param,
        alookup t.params kv.1 = some p ∧ p.range = [] ∧ p.locked = false) →
    (exploreLoop t count (some n) build).2.2 = none ∧
    (exploreLoop t count (some n) build).2.1 = some n ∧
    (exploreLoop t count (some n) build).1.explored = t.explored ++ build.map Prod.fst ∧
    (∀ kv ∈ build, alookup (exploreLoop t count (some n) build).1.params kv.1 =
      (alookup t.params kv.1).map (fun p => { p with range := kv.2 })) ∧
    (∀ k, k ∉ build.map Prod.fst →
      alookup (exploreLoop t count (some n) build).1.params k = alookup t.params k) := by
  induction build with
  | nil =>
    intro t count n hn htlen hcount hlen hnodup hexp hparams
    simp [exploreLoop]
  | cons kv rest ih =>
    intro t count n hn htlen hcount hlen hnodup hexp hparams
    obtain ⟨key, vs⟩ := kv
    obtain ⟨p, hp, hpr, hpl⟩ := hparams (key, vs) (List.mem_cons_self _ _)
    have hvs : vs.length = n := hlen (key, vs) (List.mem_cons_self _ _)
    have hkeyrest : key ∉ rest.map Prod.fst := by
      have := hnodup
      simp only [List.map_cons, List.nodup_cons] at this
      exact this.1
    have hrestnodup : (rest.map Prod.fst).Nodup := by
      have := hnodup
      simp only [List.map_cons, List.nodup_cons] at this
      exact this.2
    have hred := exploreLoop_step t count n key vs rest p hp hpr hpl (by omega) htlen hvs hn
    rw [hred]
    have ihres := ih
      { t with params := ainsert t.params key { p with range := vs },
               explored := addExplored t.explored key }
      (count + 1) n hn htlen (by omega)
      (fun kv hkv => hlen kv (List.mem_cons_of_mem _ hkv))
      hrestnodup
      (by
        intro kv hkv
        have h1 : kv.1 ∉ t.explored := hexp kv (List.mem_cons_of_mem _ hkv)
        have h2 : kv.1 ≠ key := by
          intro hc
          apply hkeyrest
          rw [← hc]
          exact List.mem_map_of_mem Prod.fst hkv
        show kv.1 ∉ addExplored t.explored key
        by_cases hmem : key ∈ t.explored
        · simpa [addExplored, hmem] using h1
        · rw [addExplored_not_mem _ _ hmem]
          intro hc
          rcases List.mem_append.mp hc with hc1 | hc2
          · exact h1 hc1
          · exact h2 (List.mem_singleton.mp hc2))
      (by
        intro kv hkv
        obtain ⟨q, hq1, hq2, hq3⟩ := hparams kv (List.mem_cons_of_mem _ hkv)
        have h2 : kv.1 ≠ key := by
          intro hc
          apply hkeyrest
          rw [← hc]
          exact List.mem_map_of_mem Prod.fst hkv
        exact ⟨q, by rwa [alookup_ainsert_ne _ _ _ _ h2], hq2, hq3⟩)
    obtain ⟨ih1, ih2, ih3, ih4, ih5⟩ := ihres
    refine ⟨ih1, ih2, ?_, ?_, ?_⟩
    · rw [ih3]
      show addExplored t.explored key ++ _ = _
      rw [addExplored_not_mem _ _ (hexp (key, vs) (List.mem_cons_self _ _))]
      simp
    · intro kv hkv
      rcases List.mem_cons.mp hkv with heq | hmem
      · subst heq
        rw [ih5 _ hkeyrest]
        show alookup (ainsert t.params key { p with range := vs }) key = _
        rw [alookup_ainsert, hp]
        rfl
      · rw [ih4 kv hmem]
        have h2 : kv.1 ≠ key := by
          intro hc
          apply hkeyrest
          rw [← hc]
          exact List.mem_map_of_mem Prod.fst hmem
        show (alookup (ainsert t.params key { p with range := vs }) kv.1).map _ = _
        rw [alookup_ainsert_ne _ _ _ _ h2]
    · intro k hk
      simp only [List.map_cons, List.mem_cons] at hk
      push_neg at hk
      rw [ih5 k hk.2]
      show alookup (ainsert t.params key { p with range := vs }) k = _
      rw [alookup_ainsert_ne _ _ _ _ hk.1]

theorem exploreLoop_first_step (t : Traj) (n : Nat) (key : Path) (vs : List Int)
    (rest : List (Path × List Int)) (p : Param)
    (hp : alookup t.params key = some p) (hpr : p.range = []) (hpl : p.locked = false)
    (htlen : t.len = 1) (hvs : vs.length = n) (hn : 1 ≤ n) :
    exploreLoop t 0 none ((key, vs) :: rest) =
      exploreLoop
        { t with params := ainsert t.params key { p with range := vs },
                 explored := addExplored t.explored key } 1 (some n) rest := by
  have hvsne : vs ≠ [] := by
    intro h
    rw [h] at hvs
    simp at hvs
    omega
  have hexplore : p._explore vs = Except.ok { p with range := vs } := by
    simp [Param._explore, hpl, Param.f_has_range, hpr]
  have hplen : Param.plen { p with range := vs } = n := by
    cases vs with
    | nil => exact absurd rfl hvsne
    | cons a l => simpa [Param.plen] using hvs
  simp only [exploreLoop, hp, hexplore, len_update_params_explored, htlen]
  rw [if_pos (show True ∧ True from ⟨trivial, trivial⟩)]
  rw [if_pos (rfl : some (Param.plen { p with range := vs }) =
    some (Param.plen { p with range := vs }))]
  rw [hplen]

theorem f_explore_ok (t : Traj) (build : List (Path × List Int)) (n : Nat)
    (hrun : t.isRun = false)
    (hexp0 : t.explored = [])
    (hnfc : t.lengthDuringNfc = none)
    (hinfo : t.runInformation = [(rn 0, ⟨0, false⟩)])
    (hids : t.runIdsIdx = [(0, rn 0)])
    (hne : build ≠ [])
    (hn : 1 ≤ n)
    (hlen : ∀ kv ∈ build, (kv.2 : List Int).length = n)
    (hnodup : (build.map Prod.fst).Nodup)
    (hparams : ∀ kv ∈ build, ∃ p : Param,
        alookup t.params kv.1 = some p ∧ p.range = [] ∧ p.locked = false) :
    (f_explore t build).2 = none ∧
    (∀ kv ∈ build, alookup (f_explore t build).1.params kv.1 =
      (alookup t.params kv.1).map (fun p => { p with range := kv.2 })) ∧
    (f_explore t build).1.explored = build.map Prod.fst ∧
    (f_explore t build).1.runInformation.map Prod.fst = (List.range n).map rn ∧
    (f_explore t build).1.len = n ∧
    LedgerOK (f_explore t build).1 n := by
  have htlen : t.len = 1 := by simp [Traj.len, hnfc, hinfo]
  have hcomp : isCompletedIdx t 0 = some false := by
    simp [isCompletedIdx, f_idx_to_run_name, hids, hinfo, alookup]
  cases build with
  | nil => exact absurd rfl hne
  | cons kv rest =>
    obtain ⟨key, vs⟩ := kv
    obtain ⟨p, hp, hpr, hpl⟩ := hparams (key, vs) (List.mem_cons_self _ _)
    have hvs : vs.length = n := hlen (key, vs) (List.mem_cons_self _ _)
    have hkeyrest : key ∉ rest.map Prod.fst := by
      have := hnodup
      simp only [List.map_cons, List.nodup_cons] at this
      exact this.1
    have hrestnodup : (rest.map Prod.fst).Nodup := by
      have := hnodup
      simp only [List.map_cons, List.nodup_cons] at this
      exact this.2
    set t1 : Traj :=
      { t with params := ainsert t.params key { p with range := vs },
               explored := addExplored t.explored key } with ht1
    have hfirst := exploreLoop_first_step t n key vs rest p hp hpr hpl htlen hvs hn
    have ihres := exploreLoop_ok rest t1 1 n hn (by rw [ht1, len_update_params_explored, htlen])
      (by omega)
      (fun kv hkv => hlen kv (List.mem_cons_of_mem _ hkv))
      hrestnodup
      (by
        intro kv hkv
        show kv.1 ∉ addExplored t.explored key
        rw [hexp0, addExplored]
        simp only [List.not_mem_nil, if_false, List.nil_append, List.mem_singleton]
        intro hc
        apply hkeyrest
        rw [← hc]
        exact List.mem_map_of_mem Prod.fst hkv)
      (by
        intro kv hkv
        obtain ⟨q, hq1, hq2, hq3⟩ := hparams kv (List.mem_cons_of_mem _ hkv)
        have h2 : kv.1 ≠ key := by
          intro hc
          apply hkeyrest
          rw [← hc]
          exact List.mem_map_of_mem Prod.fst hkv
        refine ⟨q, ?_, hq2, hq3⟩
        show alookup (ainsert t.params key { p with range := vs }) kv.1 = some q
        rwa [alookup_ainsert_ne _ _ _ _ h2])
    obtain ⟨ih1, ih2, ih3, ih4, ih5⟩ := ihres
    obtain ⟨hfr1, hfr2, hfr3, hfr4, hfr5⟩ := exploreLoop_frame rest t1 1 (some n)
    -- the final state of the loop
    have hexpfinal :
        f_explore t ((key, vs) :: rest) =
          (addRunInfos (exploreLoop t1 1 (some n) rest).1 0 n, none) := by
      unfold f_explore
      rw [if_neg (by simp [hrun]), hcomp]
      simp only
      rw [if_neg (by
        simp only [htlen, hexp0]
        push_neg
        exact ⟨by omega, rfl, by simp⟩), hfirst]
      rcases hloop : exploreLoop t1 1 (some n) rest with ⟨tf, len?, err?⟩
      rw [hloop] at ih1 ih2
      simp only at ih1 ih2
      subst ih1
      subst ih2
      rfl
    rw [hexpfinal]
    obtain ⟨hu1, hu2, hu3, hu4⟩ :=
      addRunInfos_untouched (exploreLoop t1 1 (some n) rest).1 0 n
    have hinfokeys : (exploreLoop t1 1 (some n) rest).1.runInformation.map Prod.fst =
        (List.range 1).map rn := by
      rw [hfr1]
      show t.runInformation.map Prod.fst = _
      rw [hinfo]
      rfl
    have hkeysres : (addRunInfos (exploreLoop t1 1 (some n) rest).1 0 n).runInformation.map
        Prod.fst = (List.range n).map rn := by
      rw [keys_addRunInfos _ 0 n 1 (by omega) hinfokeys]
      congr 2
      omega
    have hnfcres : (addRunInfos (exploreLoop t1 1 (some n) rest).1 0 n).lengthDuringNfc =
        none := by
      rw [hu3, hfr2]
      exact hnfc
    refine ⟨rfl, ?_, ?_, hkeysres, ?_, ?_⟩
    · intro kv hkv
      show alookup (addRunInfos (exploreLoop t1 1 (some n) rest).1 0 n).params kv.1 = _
      rw [hu1]
      rcases List.mem_cons.mp hkv with heq | hmem
      · subst heq
        rw [ih5 _ hkeyrest]
        show alookup (ainsert t.params key { p with range := vs }) key = _
        rw [alookup_ainsert, hp]
        rfl
      · rw [ih4 kv hmem]
        have h2 : kv.1 ≠ key := by
          intro hc
          apply hkeyrest
          rw [← hc]
          exact List.mem_map_of_mem Prod.fst hmem
        show (alookup (ainsert t.params key { p with range := vs }) kv.1).map _ = _
        rw [alookup_ainsert_ne _ _ _ _ h2]
    · show (addRunInfos (exploreLoop t1 1 (some n) rest).1 0 n).explored = _
      rw [hu2, ih3]
      show addExplored t.explored key ++ _ = _
      rw [hexp0]
      simp [addExplored]
    · show Traj.len _ = n
      rw [Traj.len, hnfcres]
      have := congrArg List.length hkeysres
      simpa using this
    · refine ⟨hnfcres, hkeysres, ?_⟩
      intro i hi
      refine ⟨?_, ?_, ?_⟩
      · show alookup (addRunInfos (exploreLoop t1 1 (some n) rest).1 0 n).runIdsIdx i = _
        rw [runIdsIdx_addRunInfos, if_pos (by omega)]
      · show alookup (addRunInfos (exploreLoop t1 1 (some n) rest).1 0 n).runIdsName (rn i) = _
        rw [runIdsName_addRunInfos_in _ 0 n i (by omega)]
      · rw [runInformation_addRunInfos_in _ 0 n i (by omega)]
        rfl

theorem f_explore_already_explored (t : Traj) (b : List (Path × List Int))
    (h : t.explored ≠ []) : (f_explore t b).2.isSome = true := by
  unfold f_explore
  split
  · simp
  · split
    · simp
    · split
      · simp
      · rename_i hguard
        exact absurd (Or.inr (Or.inl h)) hguard

theorem f_explore_err_frame (t : Traj) (b : List (Path × List Int))
    (h : (f_explore t b).2.isSome = true) :
    (f_explore t b).1.runInformation = t.runInformation ∧
    (f_explore t b).1.len = t.len := by
  obtain ⟨hf1, hf2, _, _, _⟩ := exploreLoop_frame b t 0 none
  revert h
  unfold f_explore
  split
  · intro h
    exact ⟨rfl, rfl⟩
  · split
    · intro h
      exact ⟨rfl, rfl⟩
    · split
      · intro h
        exact ⟨rfl, rfl⟩
      · split
        · rename_i tf fst e heq
          rw [heq] at hf1 hf2
          simp only at hf1 hf2
          intro h
          exact ⟨hf1, len_eq_of_frame hf1 hf2⟩
        · rename_i tf heq
          rw [heq] at hf1 hf2
          simp only at hf1 hf2
          intro h
          exact ⟨hf1, len_eq_of_frame hf1 hf2⟩
        · intro h
          simp at h

theorem f_expand_err_frame (t : Traj) (b : List (Path × List Int))
    (h : (f_expand t b).2.isSome = true) :
    (f_expand t b).1.runInformation = t.runInformation ∧
    (f_expand t b).1.len = t.len := by
  obtain ⟨hf1, hf2, _, _, _⟩ := expandLoop_frame b t 0 none
  revert h
  unfold f_expand
  split
  · intro h
    exact ⟨rfl, rfl⟩
  · split
    · intro h
      exact ⟨rfl, rfl⟩
    · split
      · intro h
        exact ⟨rfl, rfl⟩
      · split
        · rename_i tf fst e heq
          rw [heq] at hf1 hf2
          simp only at hf1 hf2
          intro h
          exact ⟨hf1, len_eq_of_frame hf1 hf2⟩
        · rename_i tf heq
          rw [heq] at hf1 hf2
          simp only at hf1 hf2
          intro h
          exact ⟨hf1, len_eq_of_frame hf1 hf2⟩
        · rename_i tf length heq
          rw [heq] at hf1 hf2
          simp only at hf1 hf2
          intro h
          simp at h

/-! ## Ledger preservation -/

theorem alookup_mem_keys {K V : Type} [DecidableEq K] (l : List (K × V)) (k : K) (v : V)
    (h : alookup l k = some v) : k ∈ l.map Prod.fst := by
  induction l with
  | nil => simp [alookup] at h
  | cons hd tl ih =>
    obtain ⟨k0, v0⟩ := hd
    by_cases h0 : k0 = k
    · subst h0
      simp
    · simp only [alookup, h0, if_false] at h
      simpa using Or.inr (ih h)

theorem plen_pos (p : Param) : 1 ≤ p.plen := by
  simp only [Param.plen]
  split
  · omega
  · rename_i h
    have : p.range ≠ [] := by
      intro hc
      simp [hc] at h
    have := List.length_pos.mpr this
    omega

theorem exploreLoop_some_ge_one (build : List (Path × List Int)) :
    ∀ (t : Traj) (count : Nat) (len? : Option Nat),
    (∀ m, len? = some m → 1 ≤ m) →
    ∀ m, (exploreLoop t count len? build).2.1 = some m → 1 ≤ m := by
  induction build with
  | nil =>
    intro t count len? hlen m hm
    simp only [exploreLoop] at hm
    exact hlen m hm
  | cons kv rest ih =>
    intro t count len? hlen m hm
    obtain ⟨key, vs⟩ := kv
    simp only [exploreLoop] at hm
    split at hm
    · exact hlen m hm
    · split at hm
      · exact hlen m hm
      · rename_i act act' heq2
        split at hm
        · split at hm
          · exact ih _ _ _
              (fun m' hm' => Option.some.inj hm' ▸ plen_pos act') m hm
          · have hm2 : some act'.plen = some m := hm
            exact Option.some.inj hm2 ▸ plen_pos act'
        · split at hm
          · rename_i hc
            split at hm
            · refine ih _ _ _ ?_ m hm
              intro m' hm'
              have h := Option.some.inj hm'
              omega
            · have hm2 : some _ = some m := hm
              have h := Option.some.inj hm2
              omega
          · split at hm
            · exact ih _ _ _ hlen m hm
            · exact hlen m hm

theorem f_explore_success_shape (t : Traj) (b : List (Path × List Int))
    (hs : (f_explore t b).2 = none) :
    ∃ length, 1 ≤ length ∧
      (f_explore t b).1 = addRunInfos (exploreLoop t 0 none b).1 0 length ∧
      (exploreLoop t 0 none b).2.1 = some length := by
  revert hs
  unfold f_explore
  split
  · intro hs
    simp at hs
  · split
    · intro hs
      simp at hs
    · split
      · intro hs
        simp at hs
      · split
        · intro hs
          simp at hs
        · intro hs
          simp at hs
        · rename_i t' length heq
          intro _
          refine ⟨length, ?_, ?_, ?_⟩
          · refine exploreLoop_some_ge_one b t 0 none (by simp) length ?_
            rw [heq]
          · rw [heq]
          · rw [heq]

theorem ledgerOK_addRunInfos (t : Traj) (L n : Nat) (h : LedgerOK t L) :
    LedgerOK (addRunInfos t L n) (L + n) := by
  obtain ⟨h1, h2, h3⟩ := h
  refine ⟨?_, ?_, ?_⟩
  · rw [(addRunInfos_untouched t L n).2.2.1]
    exact h1
  · rw [keys_addRunInfos t L n L (le_refl L) h2]
    congr 2
    omega
  · intro i hi
    by_cases hiL : i < L
    · obtain ⟨ha, hb, hc⟩ := h3 i hiL
      refine ⟨?_, ?_, ?_⟩
      · show alookup (addRunInfos t L n).runIdsIdx i = _
        rw [runIdsIdx_addRunInfos, if_neg (by omega)]
        exact ha
      · show alookup (addRunInfos t L n).runIdsName (rn i) = _
        rw [runIdsName_addRunInfos_out _ _ _ _
          (fun j hj1 hj2 hc' => by have := rn_inj.mp hc'; omega)]
        exact hb
      · rw [runInformation_addRunInfos_out _ _ _ _
          (fun j hj1 hj2 hc' => by have := rn_inj.mp hc'; omega)]
        exact hc
    · refine ⟨?_, ?_, ?_⟩
      · show alookup (addRunInfos t L n).runIdsIdx i = _
        rw [runIdsIdx_addRunInfos, if_pos (by omega)]
      · show alookup (addRunInfos t L n).runIdsName (rn i) = _
        rw [runIdsName_addRunInfos_in _ L n i (by omega)]
      · rw [runInformation_addRunInfos_in _ L n i (by omega)]
        rfl

theorem ledgerOK_addRunInfos_zero_to (t : Traj) (n : Nat) (hn : 1 ≤ n)
    (hnfc : t.lengthDuringNfc = none)
    (hkeys : t.runInformation.map Prod.fst = (List.range 1).map rn) :
    LedgerOK (addRunInfos t 0 n) n := by
  refine ⟨?_, ?_, ?_⟩
  · rw [(addRunInfos_untouched t 0 n).2.2.1]
    exact hnfc
  · rw [keys_addRunInfos t 0 n 1 (by omega) hkeys]
    congr 2
    omega
  · intro i hi
    refine ⟨?_, ?_, ?_⟩
    · show alookup (addRunInfos t 0 n).runIdsIdx i = _
      rw [runIdsIdx_addRunInfos, if_pos (by omega)]
    · show alookup (addRunInfos t 0 n).runIdsName (rn i) = _
      rw [runIdsName_addRunInfos_in _ 0 n i (by omega)]
    · rw [runInformation_addRunInfos_in _ 0 n i (by omega)]
      rfl

theorem f_explore_ledger (t : Traj) (b : List (Path × List Int)) (hL : LedgerOK t 1)
    (hs : (f_explore t b).2 = none) :
    LedgerOK (f_explore t b).1 ((f_explore t b).1.len) := by
  obtain ⟨length, hlen1, hshape, _⟩ := f_explore_success_shape t b hs
  obtain ⟨hf1, hf2, _, _, _⟩ := exploreLoop_frame b t 0 none
  have hres : LedgerOK (addRunInfos (exploreLoop t 0 none b).1 0 length) length :=
    ledgerOK_addRunInfos_zero_to _ length hlen1 (by rw [hf2]; exact hL.1)
      (by rw [hf1]; exact hL.2.1)
  rw [hshape, hres.len_eq]
  exact hres

theorem f_expand_ledger (t : Traj) (b : List (Path × List Int)) (L : Nat)
    (hL : LedgerOK t L) (hs : (f_expand t b).2 = none) :
    LedgerOK (f_expand t b).1 ((f_expand t b).1.len) := by
  obtain ⟨hf1, hf2, hf3, hf4, _⟩ := expandLoop_frame b t 0 none
  revert hs
  unfold f_expand
  split
  · intro hs
    simp at hs
  · split
    · intro hs
      simp at hs
    · split
      · intro hs
        simp at hs
      · split
        · intro hs
          simp at hs
        · intro hs
          simp at hs
        · rename_i t' length heq
          intro _
          rw [heq] at hf1 hf2 hf3 hf4
          simp only at hf1 hf2 hf3 hf4
          have hLt' : LedgerOK t' L := by
            refine ⟨by rw [hf2]; exact hL.1, by rw [hf1]; exact hL.2.1, ?_⟩
            intro i hi
            obtain ⟨ha, hb, hc⟩ := hL.2.2 i hi
            refine ⟨?_, ?_, ?_⟩
            · show alookup t'.runIdsIdx i = _
              rw [hf3]
              exact ha
            · show alookup t'.runIdsName (rn i) = _
              rw [hf4]
              exact hb
            · rw [hf1]
              exact hc
          have hlenL : t'.len = L := hLt'.len_eq
          rw [hlenL]
          have hres := ledgerOK_addRunInfos t' L (length - L) hLt'
          have hresult : LedgerOK
              { addRunInfos t' L (length - L) with
                expansionNotStored := (addRunInfos t' L (length - L)).stored ||
                  (addRunInfos t' L (length - L)).expansionNotStored }
              (L + (length - L)) := hres
          rw [hresult.len_eq]
          exact hresult

/-! ## Merge-side ledger lemmas -/

/-- Two trajectory states with the same run ledger (and run flag). -/
def SameLedger (a b : Traj) : Prop :=
  a.runInformation = b.runInformation ∧ a.runIdsIdx = b.runIdsIdx ∧
  a.runIdsName = b.runIdsName ∧ a.lengthDuringNfc = b.lengthDuringNfc ∧ a.isRun = b.isRun

theorem SameLedger.refl (a : Traj) : SameLedger a a := ⟨rfl, rfl, rfl, rfl, rfl⟩

theorem SameLedger.trans {a b c : Traj} (h1 : SameLedger a b) (h2 : SameLedger b c) :
    SameLedger a c := by
  obtain ⟨x1, x2, x3, x4, x5⟩ := h1
  obtain ⟨y1, y2, y3, y4, y5⟩ := h2
  exact ⟨x1.trans y1, x2.trans y2, x3.trans y3, x4.trans y4, x5.trans y5⟩

theorem SameLedger.len_congr {a b : Traj} (h : SameLedger a b) : a.len = b.len := by
  obtain ⟨h1, _, _, h4, _⟩ := h
  simp [Traj.len, h1, h4]

theorem SameLedger.ledgerOK {a b : Traj} {L : Nat} (h : SameLedger a b)
    (hb : LedgerOK b L) : LedgerOK a L := by
  obtain ⟨h1, h2, h3, h4, _⟩ := h
  refine ⟨by rw [h4]; exact hb.1, by rw [h1]; exact hb.2.1, ?_⟩
  intro i hi
  obtain ⟨x, y, z⟩ := hb.2.2 i hi
  exact ⟨by show alookup a.runIdsIdx i = _; rw [h2]; exact x,
    by show alookup a.runIdsName (rn i) = _; rw [h3]; exact y,
    by rw [h1]; exact z⟩

theorem extendLoop_sameLedger (ptc : List (Path × Param × Param)) :
    ∀ (self : Traj) (useRuns : List Bool) (aL : Nat) (trial : Option Path) (shift : Int)
      (otl : List Int),
    SameLedger (extendLoop self useRuns aL trial shift otl ptc).1 self := by
  induction ptc with
  | nil =>
    intro self u a tr s o
    exact SameLedger.refl _
  | cons e rest ih =>
    intro self u a tr s o
    obtain ⟨fullname, myP, otherP⟩ := e
    simp only [extendLoop]
    repeat' split
    all_goals first
      | exact ih _ _ _ _ _ _
      | exact SameLedger.refl _

theorem restoreMarked_sameLedger (self : Traj) (ptc : List (Path × Param × Param)) :
    SameLedger (restoreMarked self ptc) self := ⟨rfl, rfl, rfl, rfl, rfl⟩

theorem extendLoop_eq_sameLedger {s s2 : Traj} {u : List Bool} {aL : Nat}
    {tr : Option Path} {sh : Int} {otl : List Int} {ptc : List (Path × Param × Param)}
    {e : Option String} (h : extendLoop s u aL tr sh otl ptc = (s2, e)) :
    SameLedger s2 s := by
  have hext := extendLoop_sameLedger ptc s u aL tr sh otl
  rw [h] at hext
  exact hext

theorem mergeParametersRest_sameLedger (self other : Traj) (rd : Bool)
    (trial : Option Path) (shift : Int) (otl : List Int)
    (ptc0 : List (Path × Param × Param)) :
    SameLedger (mergeParametersRest self other rd trial shift otl ptc0).self self := by
  unfold mergeParametersRest
  split
  · exact SameLedger.refl _
  · simp only []
    split
    · split
      · exact restoreMarked_sameLedger _ _
      · split
        all_goals rename_i self2 e2 heq2
        all_goals exact (extendLoop_eq_sameLedger heq2).trans (restoreMarked_sameLedger _ _)
    · split
      · exact SameLedger.refl _
      · split
        all_goals rename_i self2 e2 heq2
        all_goals exact extendLoop_eq_sameLedger heq2

theorem mergeParameters_sameLedger (self other : Traj) (rd : Bool)
    (trial : Option Path) :
    SameLedger (mergeParameters self other rd trial).self self := by
  unfold mergeParameters
  try simp only []
  repeat' split
  all_goals first
    | exact SameLedger.refl _
    | exact mergeParametersRest_sameLedger _ _ _ _ _ _ _

theorem computeUseRuns_length (ptc : List (Path × Param × Param)) (lo ls : Nat) :
    (computeUseRuns ptc lo ls).length = lo := by
  simp [computeUseRuns]

theorem mergeParametersRest_useRuns_len (self other : Traj) (rd : Bool)
    (trial : Option Path) (shift : Int) (otl : List Int)
    (ptc0 : List (Path × Param × Param))
    (h : (mergeParametersRest self other rd trial shift otl ptc0).err = none) :
    (mergeParametersRest self other rd trial shift otl ptc0).useRuns.length = other.len := by
  revert h
  unfold mergeParametersRest
  split
  · intro h
    simp at h
  · simp only []
    split
    · split
      · intro h
        simp [computeUseRuns_length]
      · split
        all_goals rename_i self2 e2 heq2
        · intro h
          simp at h
        · intro h
          simp [computeUseRuns_length]
    · split
      · intro h
        simp
      · split
        all_goals rename_i self2 e2 heq2
        · intro h
          simp at h
        · intro h
          simp

theorem mergeParameters_useRuns_len (self other : Traj) (rd : Bool) (trial : Option Path)
    (h : (mergeParameters self other rd trial).err = none) :
    (mergeParameters self other rd trial).useRuns.length = other.len := by
  revert h
  unfold mergeParameters
  try simp only []
  repeat' split
  all_goals intro h
  all_goals first
    | simp at h
    | exact mergeParametersRest_useRuns_len _ _ _ _ _ _ _ h

theorem ledgerOK_insert_next (s : Traj) (count : Nat) (c : Bool) (h : LedgerOK s count) :
    LedgerOK
      { s with
        runInformation := ainsert s.runInformation (rn count) ⟨count, c⟩
        runIdsIdx := ainsert s.runIdsIdx count (rn count)
        runIdsName := ainsert s.runIdsName (rn count) count } (count + 1) := by
  obtain ⟨h1, h2, h3⟩ := h
  refine ⟨h1, ?_, ?_⟩
  · show (ainsert s.runInformation (rn count) ⟨count, c⟩).map Prod.fst = _
    rw [keys_ainsert_not_mem _ _ _ (by
      rw [h2]
      intro hc
      have := mem_rn_range.mp hc
      omega), h2, List.range_succ, List.map_append]
    simp
  · intro i hi
    by_cases hic : i < count
    · obtain ⟨x, y, z⟩ := h3 i hic
      have hne : i ≠ count := by omega
      have hnme : rn i ≠ rn count := fun hc => hne (rn_inj.mp hc)
      refine ⟨?_, ?_, ?_⟩
      · show alookup (ainsert s.runIdsIdx count (rn count)) i = _
        rw [alookup_ainsert_ne _ _ _ _ hne]
        exact x
      · show alookup (ainsert s.runIdsName (rn count) count) (rn i) = _
        rw [alookup_ainsert_ne _ _ _ _ hnme]
        exact y
      · show (alookup (ainsert s.runInformation (rn count) ⟨count, c⟩) (rn i)).map _ = _
        rw [alookup_ainsert_ne _ _ _ _ hnme]
        exact z
    · have hie : i = count := by omega
      subst hie
      refine ⟨?_, ?_, ?_⟩
      · show alookup (ainsert s.runIdsIdx i (rn i)) i = _
        rw [alookup_ainsert]
      · show alookup (ainsert s.runIdsName (rn i) i) (rn i) = _
        rw [alookup_ainsert]
      · show (alookup (ainsert s.runInformation (rn i) ⟨i, c⟩) (rn i)).map _ = _
        rw [alookup_ainsert]
        rfl

theorem mapM_option_eq_some {α β : Type} (f : α → Option β) (g : α → β) :
    ∀ (l : List α), (∀ a ∈ l, f a = some (g a)) → l.mapM f = some (l.map g) := by
  intro l
  induction l with
  | nil =>
    intro h
    rfl
  | cons a rest ih =>
    intro h
    rw [List.mapM_cons, h a (List.mem_cons_self _ _),
      ih (fun x hx => h x (List.mem_cons_of_mem _ hx))]
    rfl

theorem f_get_run_names_sorted_of_ledger (t : Traj) (LB : Nat) (h : LedgerOK t LB) :
    f_get_run_names_sorted t = some ((List.range LB).map rn) := by
  unfold f_get_run_names_sorted
  rw [h.len_eq]
  exact mapM_option_eq_some _ rn _ (fun i hi => (h.2.2 i (List.mem_range.mp hi)).1)

theorem countTrue_cons (b : Bool) (l : List Bool) :
    countTrue (b :: l) = (if b then 1 else 0) + countTrue l := by
  by_cases hb : b
  · simp [countTrue, List.filter_cons, hb]
    omega
  · simp [countTrue, List.filter_cons, hb]

theorem range'_filter_getD (l : List Bool) :
    ∀ s : Nat, ((List.range' s l.length).filter (fun i => l.getD (i - s) false)).length
      = countTrue l := by
  induction l with
  | nil =>
    intro s
    simp [countTrue]
  | cons b rest ih =>
    intro s
    show ((List.range' s (rest.length + 1)).filter
      (fun i => (b :: rest).getD (i - s) false)).length = _
    rw [List.range'_succ, List.filter_cons]
    have hhead : (b :: rest).getD (s - s) false = b := by simp
    have htail : (List.range' (s + 1) rest.length).filter
        (fun i => (b :: rest).getD (i - s) false) =
        (List.range' (s + 1) rest.length).filter
          (fun i => rest.getD (i - (s + 1)) false) := by
      apply List.filter_congr
      intro i hi
      have his : s + 1 ≤ i := (List.mem_range'_1.mp hi).1
      have hsub : i - s = (i - (s + 1)) + 1 := by omega
      rw [hsub]
      simp
    rw [hhead, htail, countTrue_cons]
    by_cases hb : b
    · rw [if_pos hb, if_pos hb, List.length_cons, ih (s + 1)]
      omega
    · rw [if_neg hb, if_neg hb, ih (s + 1)]
      omega

theorem range_filter_getD_count (l : List Bool) :
    ((List.range l.length).filter (fun i => l.getD i false)).length = countTrue l := by
  have h := range'_filter_getD l 0
  rw [← h, List.range_eq_range']
  simp only [Nat.sub_zero]

theorem mergeRunsLoop_spec (idxs : List Nat) :
    ∀ (self other : Traj) (useRuns : List Bool) (count : Nat) (acc : List (PName × PName)),
    (∀ i ∈ idxs, (alookup other.runInformation (rn i)).map RunInfo.idx = some i ∧
      i < useRuns.length) →
    LedgerOK self count →
    (mergeRunsLoop self other useRuns count acc (idxs.map rn)).2.2 = none ∧
    LedgerOK (mergeRunsLoop self other useRuns count acc (idxs.map rn)).1
      (count + (idxs.filter (fun i => useRuns.getD i false)).length) ∧
    (mergeRunsLoop self other useRuns count acc (idxs.map rn)).2.1.map Prod.snd =
      acc.map Prod.snd ++
        (List.range' count ((idxs.filter (fun i => useRuns.getD i false)).length)).map rn ∧
    (mergeRunsLoop self other useRuns count acc (idxs.map rn)).1.params = self.params ∧
    (mergeRunsLoop self other useRuns count acc (idxs.map rn)).1.explored = self.explored := by
  induction idxs with
  | nil =>
    intro self other useRuns count acc h hL
    refine ⟨rfl, ?_, ?_, rfl, rfl⟩
    · simpa using hL
    · simp [mergeRunsLoop]
  | cons i rest ih =>
    intro self other useRuns count acc h hL
    obtain ⟨hrec, hilen⟩ := h i (List.mem_cons_self _ _)
    obtain ⟨ri, hri, hid⟩ : ∃ ri, alookup other.runInformation (rn i) = some ri ∧
        ri.idx = i := by
      cases hl : alookup other.runInformation (rn i) with
      | none =>
        rw [hl] at hrec
        simp at hrec
      | some r =>
        rw [hl] at hrec
        simp only [Option.map_some'] at hrec
        exact ⟨r, rfl, by injection hrec⟩
    have hgetd : useRuns.getD i false = useRuns[i] := List.getD_eq_getElem useRuns false hilen
    have hget : useRuns[ri.idx]? = some (useRuns.getD i false) := by
      rw [hid, List.getElem?_eq_getElem hilen, hgetd]
    simp only [List.map_cons, mergeRunsLoop, hri, hget, List.filter_cons]
    by_cases hb : useRuns.getD i false
    · rw [if_pos hb, if_pos hb]
      have hins := ledgerOK_insert_next self count ri.completed hL
      obtain ⟨ih1, ih2, ih3, ih4, ih5⟩ := ih
        { self with
          runInformation := ainsert self.runInformation (rn count) ⟨count, ri.completed⟩
          runIdsIdx := ainsert self.runIdsIdx count (rn count)
          runIdsName := ainsert self.runIdsName (rn count) count }
        other useRuns (count + 1) (acc ++ [(rn i, rn count)])
        (fun j hj => h j (List.mem_cons_of_mem _ hj)) hins
      refine ⟨ih1, ?_, ?_, ih4, ih5⟩
      · have harith : count + (i :: (rest.filter (fun j => useRuns.getD j false))).length =
            count + 1 + (rest.filter (fun j => useRuns.getD j false)).length := by
          simp only [List.length_cons]
          omega
        rw [harith]
        exact ih2
      · rw [ih3]
        simp only [List.map_append, List.length_cons]
        rw [List.range'_succ]
        simp
    · rw [if_neg hb, if_neg hb]
      exact ih self other useRuns count acc (fun j hj => h j (List.mem_cons_of_mem _ hj)) hL

theorem mergeSingleRuns_spec (self other : Traj) (useRuns : List Bool) (LA LB : Nat)
    (hself : LedgerOK self LA) (hother : LedgerOK other LB)
    (hur : useRuns.length = LB) :
    (mergeSingleRuns self other useRuns).2.2 = none ∧
    LedgerOK (mergeSingleRuns self other useRuns).1 (LA + countTrue useRuns) ∧
    (mergeSingleRuns self other useRuns).2.1.map Prod.snd =
      (List.range' LA (countTrue useRuns)).map rn ∧
    (mergeSingleRuns self other useRuns).1.params = self.params ∧
    (mergeSingleRuns self other useRuns).1.explored = self.explored := by
  unfold mergeSingleRuns
  rw [f_get_run_names_sorted_of_ledger other LB hother]
  simp only []
  rw [hself.len_eq]
  have hspec := mergeRunsLoop_spec (List.range LB) self other useRuns LA []
    (fun i hi => ⟨(hother.2.2 i (List.mem_range.mp hi)).2.2,
      by rw [hur]; exact List.mem_range.mp hi⟩)
    hself
  have hcount : ((List.range LB).filter (fun i => useRuns.getD i false)).length
      = countTrue useRuns := by
    rw [← hur]
    exact range_filter_getD_count useRuns
  rw [hcount] at hspec
  simpa using hspec

theorem f_merge_core_success_shape (self other : Traj) (w : LinkWorld)
    (olb : List (Path × List (Path × List PName))) (rd : Bool) (trial : Option Path)
    (hs : (f_merge_core self other w olb rd trial).2.2.2 = none) :
    (mergeParameters self other rd trial).err = none ∧
    (mergeSingleRuns (mergeParameters self other rd trial).self other
      (mergeParameters self other rd trial).useRuns).2.2 = none ∧
    (f_merge_core self other w olb rd trial).1 =
      (mergeSingleRuns (mergeParameters self other rd trial).self other
        (mergeParameters self other rd trial).useRuns).1 ∧
    ¬ ((mergeParameters self other rd trial).useRuns.all (fun b => !b)) = true := by
  revert hs
  unfold f_merge_core
  split
  · intro hs
    simp at hs
  · simp only []
    split
    · intro hs
      simp at hs
    · rename_i heqerr
      split
      · intro hs
        simp at hs
      · rename_i hall
        split
        · intro hs
          simp at hs
        · rename_i self2 rnd heq2
          intro _
          exact ⟨heqerr, by rw [heq2], by rw [heq2], hall⟩

theorem f_merge_core_ledger (self other : Traj) (w : LinkWorld)
    (olb : List (Path × List (Path × List PName))) (rd : Bool) (trial : Option Path)
    (LA LB : Nat) (hself : LedgerOK self LA) (hother : LedgerOK other LB)
    (hs : (f_merge_core self other w olb rd trial).2.2.2 = none) :
    LedgerOK (f_merge_core self other w olb rd trial).1
      ((f_merge_core self other w olb rd trial).1.len) := by
  obtain ⟨h1, h2, h3, _⟩ := f_merge_core_success_shape self other w olb rd trial hs
  have hselfLA : LedgerOK (mergeParameters self other rd trial).self LA :=
    (mergeParameters_sameLedger self other rd trial).ledgerOK hself
  have hur : (mergeParameters self other rd trial).useRuns.length = LB := by
    rw [mergeParameters_useRuns_len self other rd trial h1, hother.len_eq]
  obtain ⟨_, hled, _, _, _⟩ := mergeSingleRuns_spec (mergeParameters self other rd trial).self
    other (mergeParameters self other rd trial).useRuns LA LB hselfLA hother hur
  rw [h3, hled.len_eq]
  exact hled

/-! ## Frame lemmas for the run cursor -/

theorem f_set_crun_sameLedger (t : Traj) (a : Option NameOrIdx) :
    SameLedger (f_set_crun t a).1 t := by
  unfold f_set_crun
  repeat' split
  all_goals exact ⟨rfl, rfl, rfl, rfl, rfl⟩

theorem iterRunsLoop_sameLedger (names : List PName) :
    ∀ (t : Traj) (acc : List PName), SameLedger (iterRunsLoop t acc names).1 t := by
  induction names with
  | nil =>
    intro t acc
    simp only [iterRunsLoop]
    exact f_set_crun_sameLedger t none
  | cons nm rest ih =>
    intro t acc
    simp only [iterRunsLoop]
    split
    · rename_i t' heq
      have h1 := f_set_crun_sameLedger t (some (NameOrIdx.name nm))
      rw [heq] at h1
      exact (ih _ _).trans h1
    · rename_i t' e heq
      have h1 := f_set_crun_sameLedger t (some (NameOrIdx.name nm))
      rw [heq] at h1
      exact h1

theorem f_iter_runs_sameLedger (t : Traj) : SameLedger (f_iter_runs t).1 t := by
  unfold f_iter_runs
  split
  · exact SameLedger.refl _
  · split
    · exact SameLedger.refl _
    · exact iterRunsLoop_sameLedger _ _ _

theorem f_restore_default_sameLedger (t : Traj) :
    SameLedger (f_restore_default t).1 t := by
  unfold f_restore_default
  split
  · exact SameLedger.refl _
  · exact ⟨rfl, rfl, rfl, rfl, rfl⟩

instance (t : Traj) (L : Nat) : Decidable (LedgerOK t L) := by
  unfold LedgerOK
  infer_instance

/-! ## Claim C7 -/

/-- C7: the run ledger is a consistent bijection: it holds for the fresh
trajectory, it gives the round trip `f_idx_to_run(f_idx_to_run(i)) = i`
on every index below the length, and it is preserved (at the new
length) by every successful `f_explore`, `f_expand` and merge
(`f_merge_core`). -/
theorem C7_run_id_bijection :
    LedgerOK freshTraj 1 ∧
    (∀ (t : Traj) (L : Nat), LedgerOK t L →
      ∀ i, i < L → (f_idx_to_run_name t i).bind (f_run_to_idx t) = some i) ∧
    (∀ (t : Traj) (b : List (Path × List Int)), LedgerOK t 1 →
      (f_explore t b).2 = none → LedgerOK (f_explore t b).1 ((f_explore t b).1.len)) ∧
    (∀ (t : Traj) (b : List (Path × List Int)) (L : Nat), LedgerOK t L →
      (f_expand t b).2 = none → LedgerOK (f_expand t b).1 ((f_expand t b).1.len)) ∧
    (∀ (self other : Traj) (w : LinkWorld) (olb : List (Path × List (Path × List PName)))
      (rd : Bool) (trial : Option Path) (LA LB : Nat),
      LedgerOK self LA → LedgerOK other LB →
      (f_merge_core self other w olb rd trial).2.2.2 = none →
      LedgerOK (f_merge_core self other w olb rd trial).1
        ((f_merge_core self other w olb rd trial).1.len)) := by
  refine ⟨by decide, ?_, f_explore_ledger, fun t b L => f_expand_ledger t b L, ?_⟩
  · intro t L h i hi
    obtain ⟨x, y, _⟩ := h.2.2 i hi
    rw [x]
    exact y
  · intro self other w olb rd trial LA LB h1 h2 h3
    exact f_merge_core_ledger self other w olb rd trial LA LB h1 h2 h3

/-- Witness for C7: the round trip on the fresh trajectory. -/
theorem C7_witness :
    (f_idx_to_run_name freshTraj 0).bind (f_run_to_idx freshTraj) = some 0 :=
  C7_run_id_bijection.2.1 freshTraj 1 (by decide) 0 (by decide)

/-! ## Claim C8 -/

/-- The C8 invariant: the record of run index 0 exists and the reported
length is at least 1. -/
def HasRunZero (t : Traj) : Prop :=
  rn 0 ∈ t.runInformation.map Prod.fst ∧ 1 ≤ t.len

instance (t : Traj) : Decidable (HasRunZero t) := by
  unfold HasRunZero
  infer_instance

theorem len_ge_one_of_same_nfc (t t' : Traj) (h : t'.lengthDuringNfc = t.lengthDuringNfc)
    (hmem : rn 0 ∈ t'.runInformation.map Prod.fst) (hlen : 1 ≤ t.len) : 1 ≤ t'.len := by
  cases hn : t.lengthDuringNfc with
  | some m =>
    have h1 : t.len = m := by simp [Traj.len, hn]
    have h2 : t'.len = m := by simp [Traj.len, h, hn]
    omega
  | none =>
    have h2 : t'.len = t'.runInformation.length := by simp [Traj.len, h, hn]
    have h3 : t'.runInformation ≠ [] := by
      intro hc
      rw [hc] at hmem
      simp at hmem
    have h4 := List.length_pos.mpr h3
    omega

theorem SameLedger.hasRunZero {a b : Traj} (h : SameLedger a b) (hb : HasRunZero b) :
    HasRunZero a := ⟨by rw [h.1]; exact hb.1, by rw [h.len_congr]; exact hb.2⟩

theorem mem_keys_addRunInfos (t : Traj) (lo n : Nat) (k : PName)
    (h : k ∈ t.runInformation.map Prod.fst) :
    k ∈ (addRunInfos t lo n).runInformation.map Prod.fst := by
  induction n generalizing t lo with
  | zero =>
    rw [addRunInfos_zero]
    exact h
  | succ n ih =>
    rw [addRunInfos_succ]
    exact ih _ _ (mem_keys_ainsert_of_mem _ _ _ _ h)

theorem f_explore_hasRunZero (t : Traj) (b : List (Path × List Int)) (h : HasRunZero t) :
    HasRunZero (f_explore t b).1 := by
  by_cases he : (f_explore t b).2.isSome
  · obtain ⟨h1, h2⟩ := f_explore_err_frame t b he
    exact ⟨by rw [h1]; exact h.1, by rw [h2]; exact h.2⟩
  · have hnone : (f_explore t b).2 = none := by
      cases hh : (f_explore t b).2
      · rfl
      · rw [hh] at he
        simp at he
    obtain ⟨length, hl1, hshape, _⟩ := f_explore_success_shape t b hnone
    obtain ⟨hf1, hf2, _, _, _⟩ := exploreLoop_frame b t 0 none
    rw [hshape]
    have hmem : rn 0 ∈ (addRunInfos (exploreLoop t 0 none b).1 0 length).runInformation.map
        Prod.fst :=
      alookup_mem_keys _ _ _ (runInformation_addRunInfos_in _ 0 length 0 (by omega))
    refine ⟨hmem, len_ge_one_of_same_nfc t _ ?_ hmem h.2⟩
    rw [(addRunInfos_untouched _ 0 length).2.2.1, hf2]

theorem f_expand_hasRunZero (t : Traj) (b : List (Path × List Int)) (h : HasRunZero t) :
    HasRunZero (f_expand t b).1 := by
  obtain ⟨hf1, hf2, _, _, _⟩ := expandLoop_frame b t 0 none
  unfold f_expand
  split
  · exact h
  · split
    · exact h
    · split
      · exact h
      · split
        · rename_i tf fst e heq
          rw [heq] at hf1 hf2
          simp only at hf1 hf2
          exact ⟨by rw [hf1]; exact h.1,
            by rw [len_eq_of_frame hf1 hf2]; exact h.2⟩
        · rename_i tf heq
          rw [heq] at hf1 hf2
          simp only at hf1 hf2
          exact ⟨by rw [hf1]; exact h.1,
            by rw [len_eq_of_frame hf1 hf2]; exact h.2⟩
        · rename_i tf length heq
          rw [heq] at hf1 hf2
          simp only at hf1 hf2
          have hmem0 : rn 0 ∈ tf.runInformation.map Prod.fst := by
            rw [hf1]
            exact h.1
          have hmem : rn 0 ∈ (addRunInfos tf tf.len
              (length - tf.len)).runInformation.map Prod.fst :=
            mem_keys_addRunInfos _ _ _ _ hmem0
          refine ⟨hmem, ?_⟩
          have hnfc : (addRunInfos tf tf.len (length - tf.len)).lengthDuringNfc =
              t.lengthDuringNfc := by
            rw [(addRunInfos_untouched _ _ _).2.2.1, hf2]
          exact len_ge_one_of_same_nfc t _ hnfc hmem h.2

theorem f_shrink_hasRunZero (t : Traj) (h : HasRunZero t) : HasRunZero (f_shrink t).1 := by
  unfold f_shrink
  split
  · exact h
  · split
    · exact h
    · have hmem : rn 0 ∈ (_add_run_info
          { t with
            params := mapExplored t.params t.explored (fun p => p.f_unlock._shrink)
            explored := []
            runInformation := []
            runIdsIdx := []
            runIdsName := [] } 0).runInformation.map Prod.fst :=
        mem_keys_ainsert_self _ _ _
      exact ⟨hmem, len_ge_one_of_same_nfc t _ rfl hmem h.2⟩

theorem mergeRunsLoop_mono (runNames : List PName) :
    ∀ (self other : Traj) (useRuns : List Bool) (count : Nat) (acc : List (PName × PName)),
    ((mergeRunsLoop self other useRuns count acc runNames).1.lengthDuringNfc =
      self.lengthDuringNfc) ∧
    (rn 0 ∈ self.runInformation.map Prod.fst →
      rn 0 ∈ (mergeRunsLoop self other useRuns count acc
        runNames).1.runInformation.map Prod.fst) := by
  induction runNames with
  | nil =>
    intro self other u c a
    exact ⟨rfl, fun h => h⟩
  | cons nm rest ih =>
    intro self other u c a
    simp only [mergeRunsLoop]
    split
    · exact ⟨rfl, fun h => h⟩
    · split
      · exact ⟨rfl, fun h => h⟩
      · split
        · refine ⟨(ih _ _ _ _ _).1, fun h => (ih _ _ _ _ _).2 ?_⟩
          exact mem_keys_ainsert_of_mem _ _ _ _ h
        · exact ih _ _ _ _ _

theorem mergeSingleRuns_hasRunZero (self other : Traj) (useRuns : List Bool)
    (h : HasRunZero self) : HasRunZero (mergeSingleRuns self other useRuns).1 := by
  unfold mergeSingleRuns
  split
  · exact h
  · obtain ⟨x, y⟩ := mergeRunsLoop_mono _ self other useRuns self.len []
    exact ⟨y h.1, len_ge_one_of_same_nfc self _ x (y h.1) h.2⟩

theorem f_merge_core_hasRunZero (self other : Traj) (w : LinkWorld)
    (olb : List (Path × List (Path × List PName))) (rd : Bool) (trial : Option Path)
    (h : HasRunZero self) : HasRunZero (f_merge_core self other w olb rd trial).1 := by
  have hsl := mergeParameters_sameLedger self other rd trial
  unfold f_merge_core
  split
  · exact h
  · simp only []
    split
    · exact hsl.hasRunZero h
    · split
      · exact hsl.hasRunZero h
      · split
        · rename_i self2 e heq
          have hm := mergeSingleRuns_hasRunZero (mergeParameters self other rd trial).self
            other (mergeParameters self other rd trial).useRuns (hsl.hasRunZero h)
          rw [heq] at hm
          exact hm
        · rename_i self2 rnd heq
          have hm := mergeSingleRuns_hasRunZero (mergeParameters self other rd trial).self
            other (mergeParameters self other rd trial).useRuns (hsl.hasRunZero h)
          rw [heq] at hm
          exact hm

/-- C8: the length is at least 1 and the record of index 0 exists: it
holds after construction and is preserved by exploration, expansion,
shrinking, cursor moves, run iteration, default restoration and
merging; `f_shrink` on an unstored trajectory resets the ledger to
exactly the index-0 record, length 1. -/
theorem C8_min_length_and_run_zero :
    HasRunZero freshTraj ∧
    (∀ (t : Traj) (b : List (Path × List Int)), HasRunZero t →
      HasRunZero (f_explore t b).1) ∧
    (∀ (t : Traj) (b : List (Path × List Int)), HasRunZero t →
      HasRunZero (f_expand t b).1) ∧
    (∀ t : Traj, HasRunZero t → HasRunZero (f_shrink t).1) ∧
    (∀ t : Traj, t.isRun = false → t.stored = false → t.lengthDuringNfc = none →
      (f_shrink t).1.runInformation.map Prod.fst = [rn 0] ∧ (f_shrink t).1.len = 1) ∧
    (∀ (t : Traj) (a : Option NameOrIdx), HasRunZero t → HasRunZero (f_set_crun t a).1) ∧
    (∀ t : Traj, HasRunZero t → HasRunZero (f_restore_default t).1) ∧
    (∀ t : Traj, HasRunZero t → HasRunZero (f_iter_runs t).1) ∧
    (∀ (self other : Traj) (w : LinkWorld) (olb : List (Path × List (Path × List PName)))
      (rd : Bool) (trial : Option Path), HasRunZero self →
      HasRunZero (f_merge_core self other w olb rd trial).1) := by
  refine ⟨by decide, f_explore_hasRunZero, f_expand_hasRunZero, f_shrink_hasRunZero, ?_,
    fun t a h => (f_set_crun_sameLedger t a).hasRunZero h,
    fun t h => (f_restore_default_sameLedger t).hasRunZero h,
    fun t h => (f_iter_runs_sameLedger t).hasRunZero h,
    f_merge_core_hasRunZero⟩
  intro t h1 h2 h3
  unfold f_shrink
  rw [if_neg (by simp [h1]), if_neg (by simp [h2])]
  refine ⟨rfl, ?_⟩
  simp [Traj.len, _add_run_info, h3, ainsert]

/-- Witness for C8: the invariant after exploring a fresh trajectory. -/
theorem C8_witness : HasRunZero (f_explore freshTraj []).1 :=
  C8_min_length_and_run_zero.2.1 freshTraj [] (by decide)

/-! ## Concrete instances -/

/-- The full name `parameters.p`. -/
def pPath : Path := [PName.other "parameters", PName.other "p"]

/-- The full name `parameters.q`. -/
def qPath : Path := [PName.other "parameters", PName.other "q"]

/-! ## Claim C9 -/

/-- A concrete explored trajectory of length 3 with run 1 selected (and
`v_full_copy` left at its `False` default). -/
def c9Traj : Traj :=
  { (f_explore (freshTrajWith [(pPath, 0)]) [(pPath, [7, 8, 9])]).1 with idx := 1 }

/-- C9 (as amended): with `v_full_copy = False` and a run selected, the
pickled state retains only the selected run's record and id-map
entries; but the helper `_length_during_nfc` is filled with the FULL
current length, so the restored narrow trajectory reports the original
length, not 1. -/
theorem C9_narrow_pickle (t : Traj) (i : Nat) (nm : PName) (ri : RunInfo)
    (hfc : t.fullCopy = false) (hidx : t.idx = (i : Int))
    (hnm : f_idx_to_run_name t i = some nm)
    (hri : alookup t.runInformation nm = some ri)
    (hnfc : t.lengthDuringNfc = none) :
    (getstate t).2 = none ∧
    (getstate t).1.runInformation = [(nm, ri)] ∧
    (getstate t).1.runIdsIdx = [(i, nm)] ∧
    (getstate t).1.runIdsName = [(nm, i)] ∧
    (setstate (getstate t).1).len = t.runInformation.length := by
  have hix : ¬ (t.idx = -1) := by
    rw [hidx]
    omega
  have hnonneg : (0 : Int) ≤ t.idx := by
    rw [hidx]
    omega
  have htonat : t.idx.toNat = i := by
    rw [hidx]
    simp
  unfold getstate
  rw [if_pos (by simp [hfc]), if_pos hix, if_pos hnonneg, htonat, hnm]
  simp only []
  rw [hri]
  simp only []
  rw [if_pos hnfc]
  refine ⟨by trivial, by trivial, by trivial, by trivial, ?_⟩
  show Traj.len _ = _
  simp [setstate, Traj.len, hnfc]

/-- Witness for C9: the concrete narrow pickle of `c9Traj` reports the
original length 3 after restoration. -/
theorem C9_witness :
    (setstate (getstate c9Traj).1).len = c9Traj.runInformation.length :=
  (C9_narrow_pickle c9Traj 1 (rn 1) ⟨1, false⟩ (by decide) (by decide) (by decide)
    (by decide) (by decide)).2.2.2.2

/-- Counterexample for C9 as stated: the narrow snapshot of the
length-3 trajectory `c9Traj` keeps exactly one run record, yet the
restored trajectory reports length 3, not 1 (`__getstate__` stores
`len(self)` of the full trajectory in `_length_during_nfc`, and
`__len__` prefers that helper). -/
theorem C9_counterexample :
    c9Traj.fullCopy = false ∧
    ¬ (c9Traj.idx = -1) ∧
    (getstate c9Traj).1.runInformation.length = 1 ∧
    (setstate (getstate c9Traj).1).len = 3 ∧
    ¬ ((setstate (getstate c9Traj).1).len = 1) := by decide

/-! ## Claim C10 -/

/-- Two leaves that differ at most in the access cursor. -/
def AccessOnly (p q : Param) : Prop :=
  q.default = p.default ∧ q.range = p.range ∧ q.locked = p.locked

theorem accessOnly_refl (p : Param) : AccessOnly p p := ⟨rfl, rfl, rfl⟩

theorem AccessOnly.comp {p q r : Param} (h1 : AccessOnly p q) (h2 : AccessOnly q r) :
    AccessOnly p r :=
  ⟨h2.1.trans h1.1, h2.2.1.trans h1.2.1, h2.2.2.trans h1.2.2⟩

theorem AccessOnly.restore_eq {p q : Param} (h : AccessOnly p q) :
    q._restore_default = p._restore_default := by
  obtain ⟨h1, h2, h3⟩ := h
  cases p
  cases q
  simp only [Param._restore_default]
  simp_all

theorem mapExplored_lookup (g : Param → Param) (hg : ∀ p, g (g p) = g p) :
    ∀ (ks : List Path) (ps : List (Path × Param)) (k : Path),
    (k ∉ ks → alookup (mapExplored ps ks g) k = alookup ps k) ∧
    (k ∈ ks → alookup (mapExplored ps ks g) k = (alookup ps k).map g) := by
  intro ks
  induction ks with
  | nil =>
    intro ps k
    exact ⟨fun _ => rfl, fun h => absurd h (List.not_mem_nil k)⟩
  | cons k0 rest ih =>
    intro ps k
    have hstep : mapExplored ps (k0 :: rest) g =
        mapExplored (match alookup ps k0 with
          | some p => ainsert ps k0 (g p)
          | none => ps) rest g := rfl
    have hlk0 : alookup (match alookup ps k0 with
        | some p => ainsert ps k0 (g p)
        | none => ps) k0 = (alookup ps k0).map g := by
      cases h0 : alookup ps k0 with
      | none => simp [h0]
      | some p => simp [alookup_ainsert]
    have hlother : ∀ k', k' ≠ k0 → alookup (match alookup ps k0 with
        | some p => ainsert ps k0 (g p)
        | none => ps) k' = alookup ps k' := by
      intro k' hne
      cases h0 : alookup ps k0 with
      | none => rfl
      | some p => exact alookup_ainsert_ne _ _ _ _ hne
    constructor
    · intro hk
      have hk1 : k ≠ k0 := fun hc => hk (by rw [hc]; exact List.mem_cons_self _ _)
      have hk2 : k ∉ rest := fun hc => hk (List.mem_cons_of_mem _ hc)
      rw [hstep, (ih _ k).1 hk2, hlother k hk1]
    · intro hk
      by_cases hk0 : k = k0
      · subst hk0
        by_cases hmem : k ∈ rest
        · rw [hstep, (ih _ k).2 hmem, hlk0]
          cases h0 : alookup ps k with
          | none => rfl
          | some p => simp [hg]
        · rw [hstep, (ih _ k).1 hmem, hlk0]
      · have hmem : k ∈ rest := by
          rcases List.mem_cons.mp hk with h | h
          · exact absurd h hk0
          · exact h
        rw [hstep, (ih _ k).2 hmem, hlother k hk0]

/-- The relation between the starting trajectory and any state reached
by cursor moves: only leaf access indices (and the cursor itself)
differ. -/
def CursorRel (t s : Traj) : Prop :=
  s.explored = t.explored ∧ s.isRun = t.isRun ∧ s.runIdsName = t.runIdsName ∧
  ∀ k, (k ∉ t.explored → alookup s.params k = alookup t.params k) ∧
    (k ∈ t.explored →
      (alookup s.params k = none ∧ alookup t.params k = none) ∨
      (∃ p q, alookup t.params k = some p ∧ alookup s.params k = some q ∧ AccessOnly p q))

theorem cursorRel_refl (t : Traj) : CursorRel t t := by
  refine ⟨rfl, rfl, rfl, fun k => ⟨fun _ => rfl, fun _ => ?_⟩⟩
  cases h : alookup t.params k with
  | none => exact Or.inl ⟨rfl, rfl⟩
  | some p => exact Or.inr ⟨p, p, rfl, rfl, accessOnly_refl p⟩

theorem cursorRel_mapExplored (t s : Traj) (h : CursorRel t s) (g : Param → Param)
    (hg : ∀ p, g (g p) = g p) (hga : ∀ p, AccessOnly p (g p))
    (idx' : Int) (crun' : Option PName) :
    CursorRel t
      { s with params := mapExplored s.params s.explored g, idx := idx', crun := crun' } := by
  obtain ⟨h1, h2, h3, h4⟩ := h
  refine ⟨h1, h2, h3, fun k => ⟨?_, ?_⟩⟩
  · intro hk
    show alookup (mapExplored s.params s.explored g) k = _
    rw [(mapExplored_lookup g hg s.explored s.params k).1 (by rw [h1]; exact hk)]
    exact (h4 k).1 hk
  · intro hk
    show (alookup (mapExplored s.params s.explored g) k = none ∧ _) ∨ _
    rw [(mapExplored_lookup g hg s.explored s.params k).2 (by rw [h1]; exact hk)]
    rcases (h4 k).2 hk with ⟨ha, hb⟩ | ⟨p, q, hp, hq, hpq⟩
    · exact Or.inl ⟨by rw [ha]; rfl, hb⟩
    · exact Or.inr ⟨p, g q, hp, by rw [hq]; rfl, hpq.comp (hga q)⟩

theorem f_set_crun_name_step (t s : Traj) (h : CursorRel t s) (hrun : t.isRun = false)
    (nm : PName) (i : Nat) (hnm : ¬ (nm = PName.dummy))
    (hl : alookup t.runIdsName nm = some i) :
    (f_set_crun s (some (NameOrIdx.name nm))).2 = none ∧
    CursorRel t (f_set_crun s (some (NameOrIdx.name nm))).1 := by
  have hsl : f_run_to_idx s nm = some i := by
    unfold f_run_to_idx
    rw [h.2.2.1]
    exact hl
  unfold f_set_crun
  rw [if_neg (by rw [h.2.1, hrun]; simp)]
  simp only []
  rw [if_neg hnm, hsl]
  simp only []
  refine ⟨by trivial, ?_⟩
  exact cursorRel_mapExplored t s h (fun p => p._set_parameter_access i)
    (fun p => rfl) (fun p => ⟨rfl, rfl, rfl⟩) (i : Int) (some nm)

theorem f_restore_core_of_rel (t s : Traj) (h : CursorRel t s) :
    (f_restore_default_core s).idx = -1 ∧ (f_restore_default_core s).crun = none ∧
    (∀ k ∈ t.explored, alookup (f_restore_default_core s).params k =
      (alookup t.params k).map Param._restore_default) ∧
    (∀ k, k ∉ t.explored → alookup (f_restore_default_core s).params k =
      alookup t.params k) := by
  obtain ⟨h1, h2, h3, h4⟩ := h
  refine ⟨rfl, rfl, ?_, ?_⟩
  · intro k hk
    show alookup (mapExplored s.params s.explored Param._restore_default) k = _
    rw [(mapExplored_lookup Param._restore_default (fun p => rfl) s.explored s.params k).2
      (by rw [h1]; exact hk)]
    rcases (h4 k).2 hk with ⟨ha, hb⟩ | ⟨p, q, hp, hq, hpq⟩
    · rw [ha, hb]
    · rw [hp, hq]
      show some q._restore_default = some p._restore_default
      rw [hpq.restore_eq]
  · intro k hk
    show alookup (mapExplored s.params s.explored Param._restore_default) k = _
    rw [(mapExplored_lookup Param._restore_default (fun p => rfl) s.explored s.params k).1
      (by rw [h1]; exact hk)]
    exact (h4 k).1 hk

theorem iterRunsLoop_run (names : List PName) :
    ∀ (t s : Traj) (acc : List PName), CursorRel t s → t.isRun = false →
    (∀ nm ∈ names, ¬ (nm = PName.dummy) ∧ ∃ i, alookup t.runIdsName nm = some i) →
    (iterRunsLoop s acc names).2.2 = none ∧
    (iterRunsLoop s acc names).2.1 = acc ++ names ∧
    (iterRunsLoop s acc names).1.idx = -1 ∧
    (iterRunsLoop s acc names).1.crun = none ∧
    (∀ k ∈ t.explored, alookup (iterRunsLoop s acc names).1.params k =
      (alookup t.params k).map Param._restore_default) ∧
    (∀ k, k ∉ t.explored → alookup (iterRunsLoop s acc names).1.params k =
      alookup t.params k) := by
  induction names with
  | nil =>
    intro t s acc hrel hrun hnames
    have hs : f_set_crun s none = (f_restore_default_core s, none) := by
      unfold f_set_crun
      rw [if_neg (by rw [hrel.2.1, hrun]; simp)]
    simp only [iterRunsLoop, hs]
    obtain ⟨a, b, c, d⟩ := f_restore_core_of_rel t s hrel
    exact ⟨by trivial, by simp, a, b, c, d⟩
  | cons nm rest ih =>
    intro t s acc hrel hrun hnames
    obtain ⟨hdum, i, hl⟩ := hnames nm (List.mem_cons_self _ _)
    obtain ⟨hstep, hrel'⟩ := f_set_crun_name_step t s hrel hrun nm i hdum hl
    rcases hsc : f_set_crun s (some (NameOrIdx.name nm)) with ⟨s', e⟩
    rw [hsc] at hstep hrel'
    simp only at hstep
    subst hstep
    simp only [iterRunsLoop, hsc]
    obtain ⟨a, b, c, d, e2, f2⟩ := ih t s' (acc ++ [nm]) hrel' hrun
      (fun x hx => hnames x (List.mem_cons_of_mem _ hx))
    exact ⟨a, by rw [b]; simp, c, d, e2, f2⟩

/-- C10: on a trajectory that is not in single-run mode, running
`f_iter_runs` to exhaustion yields exactly the run names of indices
`0 .. len-1` in increasing order, and afterwards the cursor is reset
(`v_idx = -1`, `v_crun = None`) and every explored leaf is restored to
its pre-exploration default view. -/
theorem C10_iter_runs (t : Traj) (L : Nat) (hrun : t.isRun = false) (hL : LedgerOK t L) :
    (f_iter_runs t).2.2 = none ∧
    (f_iter_runs t).2.1 = (List.range L).map rn ∧
    (f_iter_runs t).1.idx = -1 ∧
    (f_iter_runs t).1.crun = none ∧
    (∀ k ∈ t.explored, alookup (f_iter_runs t).1.params k =
      (alookup t.params k).map Param._restore_default) ∧
    (∀ k, k ∉ t.explored → alookup (f_iter_runs t).1.params k = alookup t.params k) := by
  unfold f_iter_runs
  rw [if_neg (by simp [hrun]), f_get_run_names_sorted_of_ledger t L hL]
  simp only []
  have hnames : ∀ nm ∈ (List.range L).map rn, ¬ (nm = PName.dummy) ∧
      ∃ i, alookup t.runIdsName nm = some i := by
    intro nm hnm
    obtain ⟨i, hi, rfl⟩ := List.mem_map.mp hnm
    exact ⟨fun hc => PName.noConfusion hc,
      ⟨i, (hL.2.2 i (List.mem_range.mp hi)).2.1⟩⟩
  obtain ⟨a, b, c, d, e, f⟩ := iterRunsLoop_run ((List.range L).map rn) t t []
    (cursorRel_refl t) hrun hnames
  exact ⟨a, by rw [b]; simp, c, d, e, f⟩

/-- Witness for C10: iterating a freshly explored two-run trajectory
yields exactly `run_00000000, run_00000001`. -/
theorem C10_witness :
    (f_iter_runs (f_explore (freshTrajWith [(pPath, 0)]) [(pPath, [5, 6])]).1).2.1 =
      [rn 0, rn 1] := by
  have h := C10_iter_runs (f_explore (freshTrajWith [(pPath, 0)]) [(pPath, [5, 6])]).1 2
    (by decide) (by decide)
  exact h.2.1.trans (by decide)

/-! ## Claim C1 -/

theorem f_has_range_of_ne_nil (p : Param) (h : p.range ≠ []) : p.f_has_range = true := by
  unfold Param.f_has_range
  cases hr : p.range with
  | nil => exact absurd hr h
  | cons a t => rfl

theorem range_ne_nil_of_has (p : Param) (h : p.f_has_range = true) : p.range ≠ [] := by
  unfold Param.f_has_range at h
  cases hr : p.range with
  | nil =>
    rw [hr] at h
    simp at h
  | cons a t => simp

theorem unlock_explore (p : Param) (vs : List Int) (h : p.f_has_range = false) :
    p.f_unlock._explore vs = .ok { p with locked := false, range := vs } := by
  have h' : p.range.isEmpty = true := by
    unfold Param.f_has_range at h
    simpa using h
  simp [Param._explore, Param.f_unlock, Param.f_has_range, h']

theorem unlock_expand (p : Param) (vs : List Int) (h : p.f_has_range = true) :
    p.f_unlock._expand vs = .ok { p with locked := false, range := p.range ++ vs } := by
  have h' : p.range.isEmpty = false := by
    unfold Param.f_has_range at h
    simpa using h
  simp [Param._expand, Param.f_unlock, Param.f_has_range, h']

theorem filterByUse_replicate_true (xs : List Int) (n : Nat) (h : xs.length = n) :
    filterByUse (List.replicate n true) xs = xs := by
  subst h
  induction xs with
  | nil => rfl
  | cons a t ih =>
    show filterByUse (List.replicate (a :: t).length true) (a :: t) = a :: t
    rw [List.length_cons, List.replicate_succ]
    unfold filterByUse at ih ⊢
    simp only [List.zip_cons_cons, List.filter_cons]
    simp [ih]

theorem markLoop_rd_false (self : Traj) (tn : Option Path) :
    ∀ (ps : List (Path × Param)) (acc : List (Path × Param × Param)),
    (markLoop self tn ps false acc).1 = false := by
  intro ps
  induction ps with
  | nil => intro acc; rfl
  | cons hd tl ih =>
    intro acc
    obtain ⟨key, op⟩ := hd
    unfold markLoop
    split
    · exact ih acc
    · split
      · rfl
      · split
        · exact ih acc
        · split
          · rw [ite_self]
            exact ih _
          · exact ih acc

theorem extendLoop_params_frame (uR : List Bool) (aL : Nat) (tn : Option Path)
    (shift : Int) (otl : List Int) (k : Path) :
    ∀ (entries : List (Path × Param × Param)) (s : Traj),
    (∀ e ∈ entries, ¬ (e.1 = k)) →
    alookup (extendLoop s uR aL tn shift otl entries).1.params k = alookup s.params k := by
  intro entries
  induction entries with
  | nil => intro s h; rfl
  | cons hd tl ih =>
    intro s h
    obtain ⟨fullname, mp, op⟩ := hd
    have hk : k ≠ fullname :=
      fun hh => h (fullname, mp, op) (List.mem_cons_self _ _) hh.symm
    unfold extendLoop
    split
    · rfl
    · simp only []
      split
      · show alookup (ainsert s.params fullname _) k = _
        exact alookup_ainsert_ne _ _ _ _ hk
      · split
        · show alookup (ainsert s.params fullname _) k = _
          exact alookup_ainsert_ne _ _ _ _ hk
        · rw [ih _ (fun e he => h e (List.mem_cons_of_mem _ he))]
          show alookup (ainsert s.params fullname _) k = _
          exact alookup_ainsert_ne _ _ _ _ hk

theorem countTrue_replicate_true (n : Nat) : countTrue (List.replicate n true) = n := by
  unfold countTrue
  simp [List.filter_replicate]

theorem mergeRunsLoop_params_frame (other : Traj) (uR : List Bool) :
    ∀ (names : List PName) (self : Traj) (count : Nat) (acc : List (PName × PName)),
    (mergeRunsLoop self other uR count acc names).1.params = self.params := by
  intro names
  induction names with
  | nil => intro self count acc; rfl
  | cons nm rest ih =>
    intro self count acc
    unfold mergeRunsLoop
    split
    · rfl
    · split
      · rfl
      · split
        · exact ih _ _ _
        · exact ih _ _ _

theorem mergeSingleRuns_params_frame (self other : Traj) (uR : List Bool) :
    (mergeSingleRuns self other uR).1.params = self.params := by
  unfold mergeSingleRuns
  split
  · rfl
  · exact mergeRunsLoop_params_frame other uR _ self _ _

theorem markLoop_keys_sublist (self : Traj) (tn : Option Path) :
    ∀ (ps : List (Path × Param)) (rd : Bool) (acc : List (Path × Param × Param)),
    ((markLoop self tn ps rd acc).2.1.map (fun e => e.1)).Sublist
      (acc.map (fun e => e.1) ++ ps.map (fun p => p.1)) := by
  intro ps
  induction ps with
  | nil =>
    intro rd acc
    simp [markLoop]
  | cons hd tl ih =>
    intro rd acc
    obtain ⟨key, op⟩ := hd
    have hskip : ∀ rd', ((markLoop self tn tl rd' acc).2.1.map (fun e => e.1)).Sublist
        (acc.map (fun e => e.1) ++ ((key, op) :: tl).map (fun p => p.1)) := by
      intro rd'
      refine (ih rd' acc).trans ?_
      rw [List.map_cons]
      exact List.Sublist.append_left (List.sublist_cons_self _ _) _
    unfold markLoop
    split
    · exact hskip rd
    · split
      · exact List.sublist_append_left _ _
      · rename_i myParam heqmp
        split
        · exact hskip rd
        · split
          · refine (ih _ (acc ++ [(key, myParam, op)])).trans ?_
            rw [List.map_append, List.map_cons, List.map_cons]
            rw [List.append_assoc]
            exact List.Sublist.refl _
          · exact hskip rd

theorem extendLoop_step_none (s : Traj) (uR : List Bool) (aL : Nat)
    (shift : Int) (otl : List Int) (key : Path) (mp op : Param)
    (rest : List (Path × Param × Param)) (p0 : Param)
    (hlook : alookup s.params key = some p0)
    (hpos : 0 < s.len) :
    extendLoop s uR aL none shift otl ((key, mp, op) :: rest) =
    extendLoop
      { s with
        params := ainsert s.params key
          ⟨p0.default,
           (if p0.f_has_range then p0.range else List.replicate s.len p0.f_get) ++
             (if op.f_has_range then filterByUse uR op.range
              else List.replicate aL op.f_get),
           false, p0.access⟩
        explored := addExplored s.explored key }
      uR aL none shift otl rest := by
  conv_lhs => rw [extendLoop]
  rw [hlook]
  simp only []
  rw [show (if some key = (none : Option Path) then List.map (fun x => x + shift) otl
      else if op.f_has_range = true then filterByUse uR op.range
      else List.replicate aL op.f_get) =
    (if op.f_has_range = true then filterByUse uR op.range
     else List.replicate aL op.f_get) from by rw [if_neg (by simp)]]
  by_cases hhr : p0.f_has_range = true
  · rw [if_pos hhr]
    simp only []
    rw [unlock_expand p0 _ hhr]
    simp only []
    rw [if_pos hhr]
  · rw [if_neg hhr]
    have hhr' : p0.f_has_range = false := by
      cases hb : p0.f_has_range
      · rfl
      · exact absurd hb hhr
    rw [unlock_explore p0 _ hhr']
    simp only []
    have hne : List.replicate s.len p0.f_get ≠ [] := by
      intro hc
      have hl := List.length_replicate s.len p0.f_get
      rw [hc] at hl
      simp at hl
      omega
    have hfr1 : ({ p0 with
        locked := false
        range := List.replicate s.len p0.f_get } : Param).f_has_range = true :=
      f_has_range_of_ne_nil _ hne
    rw [unlock_expand _ _ hfr1]
    simp only []
    rw [if_neg hhr]

theorem extendLoop_key_spec (uR : List Bool) (aL : Nat) (shift : Int) (otl : List Int) :
    ∀ (entries : List (Path × Param × Param)) (s : Traj),
    (entries.map (fun e => e.1)).Nodup →
    0 < s.len →
    (extendLoop s uR aL none shift otl entries).2 = none →
    ∀ key mp op, (key, mp, op) ∈ entries →
    ∃ p0, alookup s.params key = some p0 ∧
      alookup (extendLoop s uR aL none shift otl entries).1.params key =
        some ⟨p0.default,
          (if p0.f_has_range then p0.range else List.replicate s.len p0.f_get) ++
          (if op.f_has_range then filterByUse uR op.range
           else List.replicate aL op.f_get),
          false, p0.access⟩ := by
  intro entries
  induction entries with
  | nil =>
    intro s _ _ _ key mp op hmem
    exact absurd hmem (List.not_mem_nil _)
  | cons hd rest ih =>
    intro s hnd hpos hsucc key mp op hmem
    obtain ⟨k0, mp0, op0⟩ := hd
    cases hlk : alookup s.params k0 with
    | none =>
      exfalso
      rw [extendLoop, hlk] at hsucc
      simp only [] at hsucc
      exact absurd hsucc (by simp)
    | some p0 =>
      rw [extendLoop_step_none s uR aL shift otl k0 mp0 op0 rest p0 hlk hpos]
        at hsucc ⊢
      rcases List.mem_cons.mp hmem with heq | hmem'
      · have hk : key = k0 := congrArg Prod.fst heq
        have hop : op = op0 := congrArg (fun x => x.2.2) heq
        subst hk
        subst hop
        have hnot : ∀ e ∈ rest, ¬ (e.1 = key) := by
          intro e he hc
          exact (List.nodup_cons.mp hnd).1 (List.mem_map.mpr ⟨e, he, hc⟩)
        rw [extendLoop_params_frame uR aL none shift otl key rest _ hnot]
        refine ⟨p0, hlk, ?_⟩
        simp only []
        rw [alookup_ainsert]
      · have hkey_in : key ∈ rest.map (fun e => e.1) :=
          List.mem_map.mpr ⟨(key, mp, op), hmem', rfl⟩
        have hk0_ne : ¬ (k0 = key) :=
          fun hc => (List.nodup_cons.mp hnd).1 (hc ▸ hkey_in)
        obtain ⟨p0', hp0', hres⟩ := ih
          { s with
            params := ainsert s.params k0
              ⟨p0.default,
               (if p0.f_has_range then p0.range else List.replicate s.len p0.f_get) ++
                 (if op0.f_has_range then filterByUse uR op0.range
                  else List.replicate aL op0.f_get),
               false, p0.access⟩
            explored := addExplored s.explored k0 }
          (List.nodup_cons.mp hnd).2 hpos hsucc key mp op hmem'
        refine ⟨p0', ?_, hres⟩
        rw [← hp0']
        show alookup s.params key = alookup (ainsert s.params k0 _) key
        exact (alookup_ainsert_ne _ _ _ _ (fun hh => hk0_ne hh.symm)).symm

/-- C1: merging with duplicate removal off and no trial parameter, on
success: the merged trajectory's length is the sum of the two lengths,
the other trajectory's runs receive the next sequential indices
`LA .. LA+LB-1` (continuing from the current length) in their sorted
order, the ledger stays consistent at the new length, and every
parameter marked for change ends with its new exploration range equal
to the current side's existing range (or `len(self)` copies of its
unexplored default) concatenated with the other side's values (or
`len(other)` copies of its unexplored default). -/
theorem C1_merge_range_extension (self other : Traj) (w : LinkWorld)
    (olb : List (Path × List (Path × List PName))) (LA LB : Nat)
    (hLA : LedgerOK self LA) (hLB : LedgerOK other LB)
    (hnodup : (other.params.map (fun p => p.1)).Nodup)
    (hslen : 0 < self.len)
    (hblen : ∀ e ∈ (markLoop self none other.params false []).2.1,
      e.2.2.f_has_range = true → e.2.2.range.length = other.len)
    (hsucc : (f_merge_core self other w olb false none).2.2.2 = none) :
    (f_merge_core self other w olb false none).1.len = LA + LB ∧
    LedgerOK (f_merge_core self other w olb false none).1 (LA + LB) ∧
    (mergeSingleRuns (mergeParameters self other false none).self other
        (mergeParameters self other false none).useRuns).2.1.map Prod.snd =
      (List.range' LA LB).map rn ∧
    ∀ key mp op, (key, mp, op) ∈ (markLoop self none other.params false []).2.1 →
      ∃ p0, alookup self.params key = some p0 ∧
        alookup (f_merge_core self other w olb false none).1.params key =
          some ⟨p0.default,
            (if p0.f_has_range then p0.range else List.replicate self.len p0.f_get) ++
            (if op.f_has_range then op.range else List.replicate other.len op.f_get),
            false, p0.access⟩ := by
  obtain ⟨herr, hmsr, hfinal, hguard⟩ :=
    f_merge_core_success_shape self other w olb false none hsucc
  have heqMP0 : mergeParameters self other false none =
      mergeParametersRest self other false none 0 [] [] := by
    rfl
  rcases hml : markLoop self none other.params false [] with ⟨rd', ptc, merr⟩
  have hrd' : rd' = false := by
    have hh := markLoop_rd_false self none other.params []
    rw [hml] at hh
    exact hh
  subst hrd'
  rw [heqMP0] at herr hguard hfinal
  cases merr with
  | some e =>
    rw [show mergeParametersRest self other false none 0 [] [] =
      ⟨self, [], [], some e⟩ from by
        unfold mergeParametersRest
        rw [hml]] at herr
    exact absurd herr (by simp)
  | none =>
    by_cases holen0 : other.len = 0
    case pos =>
      exfalso
      rw [show mergeParametersRest self other false none 0 [] [] =
        ⟨self, List.replicate other.len true, [], none⟩ from by
          unfold mergeParametersRest
          rw [hml]
          simp only []
          rw [show (if false = true then computeUseRuns ptc other.len self.len
              else List.replicate other.len true) = List.replicate other.len true from rfl]
          rw [show (if false = true then restoreMarked self ptc
              else self) = self from rfl]
          rw [if_pos (by rw [countTrue_replicate_true]; exact holen0)]] at hguard
      apply hguard
      simp only []
      rw [holen0]
      rfl
    case neg =>
      rcases hel : extendLoop self (List.replicate other.len true)
          (countTrue (List.replicate other.len true)) none 0 [] ptc
        with ⟨self2, e2⟩
      have hreq : mergeParametersRest self other false none 0 [] [] =
          ⟨self2, List.replicate other.len true, ptc.map (fun e => e.1), e2⟩ := by
        unfold mergeParametersRest
        rw [hml]
        simp only []
        rw [show (if false = true then computeUseRuns ptc other.len self.len
            else List.replicate other.len true) = List.replicate other.len true from rfl]
        rw [show (if false = true then restoreMarked self ptc
            else self) = self from rfl]
        rw [if_neg (show ¬ (countTrue (List.replicate other.len true) = 0) from by
          rw [countTrue_replicate_true]; exact holen0)]
        rw [hel]
        cases e2 <;> rfl
      rw [hreq] at herr hfinal
      simp only [] at herr hfinal
      subst herr
      have hLBlen : other.len = LB := hLB.len_eq
      have hself2LA : LedgerOK self2 LA := by
        have hsl := mergeParameters_sameLedger self other false none
        rw [heqMP0, hreq] at hsl
        exact hsl.ledgerOK hLA
      have hur : (List.replicate other.len true : List Bool).length = LB := by
        simp [hLBlen]
      obtain ⟨hmsrerr, hled, hdict, hpframe, hexp⟩ :=
        mergeSingleRuns_spec self2 other (List.replicate other.len true) LA LB
          hself2LA hLB hur
      have hcount : countTrue (List.replicate other.len true) = LB := by
        rw [countTrue_replicate_true, hLBlen]
      rw [hcount] at hled hdict
      refine ⟨?_, ?_, ?_, ?_⟩
      · rw [hfinal]
        exact hled.len_eq
      · rw [hfinal]
        exact hled
      · rw [heqMP0, hreq]
        simp only []
        rw [hdict]
      · intro key mp op hkm
        simp only [] at hkm
        have hnd : (ptc.map (fun e => e.1)).Nodup := by
          have hsub := markLoop_keys_sublist self none other.params false []
          rw [hml] at hsub
          simp only [List.map_nil, List.nil_append] at hsub
          exact hnodup.sublist hsub
        have hsuccEL : (extendLoop self (List.replicate other.len true)
            (countTrue (List.replicate other.len true)) none 0 [] ptc).2 = none := by
          rw [hel]
        obtain ⟨p0, hp0, hres⟩ := extendLoop_key_spec (List.replicate other.len true)
          (countTrue (List.replicate other.len true)) 0 [] ptc self hnd hslen hsuccEL
          key mp op hkm
        rw [hel] at hres
        simp only [] at hres
        refine ⟨p0, hp0, ?_⟩
        rw [hfinal, hpframe, hres]
        have hext : (if op.f_has_range then filterByUse (List.replicate other.len true)
              op.range else List.replicate (countTrue (List.replicate other.len true))
              op.f_get) =
            (if op.f_has_range then op.range
             else List.replicate other.len op.f_get) := by
          by_cases hop : op.f_has_range = true
          · rw [if_pos hop, if_pos hop]
            exact filterByUse_replicate_true op.range other.len
              (hblen (key, mp, op) (by rw [hml]; exact hkm) hop)
          · rw [if_neg hop, if_neg hop, countTrue_replicate_true]
        rw [hext]

/-- The length-3 current trajectory with explored `p` and unexplored
`q = 1` for the C1 witness. -/
def c1A : Traj :=
  (f_explore (freshTrajWith [(pPath, 0), (qPath, 1)]) [(pPath, [0, 1, 2])]).1

/-- The length-2 other trajectory with explored `p` and unexplored
`q = 2` for the C1 witness. -/
def c1B : Traj :=
  (f_explore (freshTrajWith [(pPath, 0), (qPath, 2)]) [(pPath, [3, 4])]).1

/-- Witness for C1: merging the length-2 trajectory into the length-3
one (dedup off) gives length 5 and `q`'s range `[1, 1, 1, 2, 2]`. -/
theorem C1_witness :
    (f_merge_core c1A c1B ⟨[], []⟩ [] false none).1.len = 5 ∧
    alookup (f_merge_core c1A c1B ⟨[], []⟩ [] false none).1.params qPath =
      some ⟨1, [1, 1, 1, 2, 2], false, none⟩ := by
  have h := C1_merge_range_extension c1A c1B ⟨[], []⟩ [] 3 2 (by decide) (by decide)
    (by decide) (by decide) (by decide) (by decide)
  refine ⟨h.1, ?_⟩
  obtain ⟨p0, hp0, hres⟩ := h.2.2.2 qPath ⟨1, [], false, none⟩ ⟨2, [], false, none⟩
    (by decide)
  have hp0' : p0 = ⟨1, [], false, none⟩ :=
    Option.some.inj (hp0.symm.trans (show alookup c1A.params qPath =
      some ⟨1, [], false, none⟩ by decide))
  subst hp0'
  rw [hres]
  decide

/-! ## Claim C5 -/

/-- The trial-value list of a leaf (`my_trial_list` / `other_trial_list`
construction of `_merge_parameters`, lines 2332-2360): the exploration
range if explored, else the single current value. -/
def trialListOf (p : Param) : List Int :=
  if p.f_has_range then p.range else [p.f_get]

theorem trialListOf_ne_nil (p : Param) : trialListOf p ≠ [] := by
  unfold trialListOf
  by_cases h : p.f_has_range = true
  · rw [if_pos h]
    exact range_ne_nil_of_has p h
  · rw [if_neg h]
    simp

theorem markLoop_extra (self : Traj) (tn : Option Path) :
    ∀ (ps : List (Path × Param)) (rd : Bool) (acc : List (Path × Param × Param)),
    ∃ extra, (markLoop self tn ps rd acc).2.1 = acc ++ extra ∧
      ∀ e ∈ extra, ¬ (some e.1 = tn) := by
  intro ps
  induction ps with
  | nil =>
    intro rd acc
    exact ⟨[], by simp [markLoop], by simp⟩
  | cons hd tl ih =>
    intro rd acc
    obtain ⟨key, op⟩ := hd
    unfold markLoop
    split
    · exact ih rd acc
    · split
      · exact ⟨[], by simp, by simp⟩
      · rename_i myParam heqmp
        split
        · exact ih rd acc
        · rename_i hnot
          split
          · obtain ⟨extra, h1, h2⟩ := ih _ (acc ++ [(key, myParam, op)])
            refine ⟨(key, myParam, op) :: extra, by rw [h1]; simp, ?_⟩
            intro e he
            rcases List.mem_cons.mp he with rfl | hrest
            · exact hnot
            · exact h2 e hrest
          · exact ih rd acc

theorem extendLoop_trial_step (s : Traj) (uR : List Bool) (aL : Nat) (tp : Path)
    (shift : Int) (otl : List Int) (myT oT : Param)
    (rest : List (Path × Param × Param))
    (hlook : alookup s.params tp = some myT)
    (hpos : 0 < s.len) :
    extendLoop s uR aL (some tp) shift otl ((tp, myT, oT) :: rest) =
    extendLoop
      { s with
        params := ainsert s.params tp
          ⟨myT.default,
           (if myT.f_has_range then myT.range else List.replicate s.len myT.f_get) ++
             otl.map (fun x => x + shift),
           false, myT.access⟩
        explored := addExplored s.explored tp }
      uR aL (some tp) shift otl rest := by
  conv_lhs => rw [extendLoop]
  rw [hlook]
  simp only []
  rw [if_true]
  by_cases hhr : myT.f_has_range = true
  · rw [if_pos hhr]
    simp only []
    rw [unlock_expand myT _ hhr]
    simp only []
    rw [if_pos hhr]
  · rw [if_neg hhr]
    have hhr' : myT.f_has_range = false := by
      cases hb : myT.f_has_range
      · rfl
      · exact absurd hb hhr
    rw [unlock_explore myT _ hhr']
    simp only []
    have hne : List.replicate s.len myT.f_get ≠ [] := by
      intro hc
      have hl := List.length_replicate s.len myT.f_get
      rw [hc] at hl
      simp at hl
      omega
    have hfr1 : ({ myT with
        locked := false
        range := List.replicate s.len myT.f_get } : Param).f_has_range = true :=
      f_has_range_of_ne_nil _ hne
    rw [unlock_expand _ _ hfr1]
    simp only []
    rw [if_neg hhr]

theorem list_toFinset_map (f : Int → Int) (l : List Int) :
    (l.map f).toFinset = l.toFinset.image f := by
  induction l with
  | nil => simp
  | cons a t ih => simp [ih]

theorem pyRangeSet_union (a b : Int) (ha : 0 ≤ a) (hb : 0 ≤ b) :
    pyRangeSet a ∪ (pyRangeSet b).image (fun x => x + a) = pyRangeSet (a + b) := by
  ext x
  simp only [Finset.mem_union, Finset.mem_image, mem_pyRangeSet]
  constructor
  · rintro (⟨h0, h1⟩ | ⟨y, ⟨hy0, hy1⟩, rfl⟩) <;> constructor <;> omega
  · rintro ⟨h0, h1⟩
    by_cases hx : x < a
    · exact Or.inl ⟨h0, hx⟩
    · exact Or.inr ⟨x - a, ⟨by omega, by omega⟩, by omega⟩

theorem toFinset_replicate_pos (n : Nat) (a : Int) (h : 0 < n) :
    (List.replicate n a).toFinset = {a} := by
  induction n with
  | zero => omega
  | succ m ih =>
    rw [List.replicate_succ]
    cases Nat.eq_zero_or_pos m with
    | inl h0 =>
      rw [h0]
      simp
    | inr hpos =>
      rw [List.toFinset_cons, ih hpos]
      simp

theorem nonneg_of_trial_contig (l : List Int) (m : Int) (hne : l ≠ [])
    (h : l.toFinset = pyRangeSet (m + 1)) : 0 ≤ m := by
  have hnonempty : l.toFinset.Nonempty := by
    cases l with
    | nil => exact absurd rfl hne
    | cons a t => exact ⟨a, by simp⟩
  rw [h] at hnonempty
  obtain ⟨x, hx⟩ := hnonempty
  rw [mem_pyRangeSet] at hx
  omega

theorem mergeParameters_trial_fail1 (self other : Traj) (rd0 : Bool) (tp : Path)
    (myTrial : Param) (hmy : alookup self.params tp = some myTrial)
    (h : (trialListOf myTrial).toFinset ≠
      pyRangeSet (listMaxI (trialListOf myTrial) + 1)) :
    ∃ e, (mergeParameters self other rd0 (some tp)).err = some e := by
  unfold mergeParameters
  simp only []
  rw [hmy]
  unfold trialListOf at h
  cases hot : alookup other.params tp with
  | none =>
    simp only []
    exact ⟨_, rfl⟩
  | some otherTrial =>
    simp only []
    rw [if_pos h]
    exact ⟨_, rfl⟩

theorem mergeParameters_trial_fail2 (self other : Traj) (rd0 : Bool) (tp : Path)
    (otherTrial : Param) (hot : alookup other.params tp = some otherTrial)
    (h2 : (trialListOf otherTrial).toFinset ≠
      pyRangeSet (listMaxI (trialListOf otherTrial) + 1)) :
    ∃ e, (mergeParameters self other rd0 (some tp)).err = some e := by
  unfold mergeParameters
  simp only []
  unfold trialListOf at h2
  cases hmy : alookup self.params tp with
  | none =>
    simp only []
    exact ⟨_, rfl⟩
  | some myTrial =>
    rw [hot]
    simp only []
    by_cases h1 : (if myTrial.f_has_range = true then myTrial.range
        else [myTrial.f_get]).toFinset =
      pyRangeSet (listMaxI (if myTrial.f_has_range = true then myTrial.range
        else [myTrial.f_get]) + 1)
    · rw [if_neg (fun hc => hc h1), if_pos h2]
      exact ⟨_, rfl⟩
    · rw [if_pos h1]
      exact ⟨_, rfl⟩

theorem f_merge_core_err_isSome (self other : Traj) (w : LinkWorld)
    (olb : List (Path × List (Path × List PName))) (rd : Bool) (trial : Option Path)
    (h : ∃ e, (mergeParameters self other rd trial).err = some e) :
    (f_merge_core self other w olb rd trial).2.2.2.isSome = true := by
  unfold f_merge_core
  split
  · rfl
  · obtain ⟨e, he⟩ := h
    simp only []
    rw [he]
    rfl

theorem mergeParameters_trial_eq (self other : Traj) (rd0 : Bool) (tp : Path)
    (myTrial otherTrial : Param)
    (hmy : alookup self.params tp = some myTrial)
    (hot : alookup other.params tp = some otherTrial)
    (hc1 : (trialListOf myTrial).toFinset =
      pyRangeSet (listMaxI (trialListOf myTrial) + 1))
    (hc2 : (trialListOf otherTrial).toFinset =
      pyRangeSet (listMaxI (trialListOf otherTrial) + 1)) :
    mergeParameters self other rd0 (some tp) =
      mergeParametersRest { self with explored := addExplored self.explored tp }
        other false (some tp) (listMaxI (trialListOf myTrial) + 1)
        (trialListOf otherTrial) [(tp, myTrial, otherTrial)] := by
  unfold mergeParameters
  simp only []
  rw [hmy, hot]
  unfold trialListOf at hc1 hc2 ⊢
  simp only []
  rw [if_neg (fun hc => hc hc1), if_neg (fun hc => hc hc2)]
  rfl

/-- C5: with a trial parameter given, the merge raises unless the trial
values form exactly the contiguous set `{0..T1}` on the current side and
`{0..T2}` on the other side; when the whole merge succeeds, the trial
leaf's new range is the current-side values followed by the other side's
values each shifted by `T1 + 1`, so its value set is exactly
`{0..T1+T2+1}`. -/
theorem C5_trial_merge (self other : Traj) (w : LinkWorld)
    (olb : List (Path × List (Path × List PName))) (rd : Bool) (tp : Path)
    (myTrial otherTrial : Param)
    (hmy : alookup self.params tp = some myTrial)
    (hot : alookup other.params tp = some otherTrial)
    (hslen : 0 < self.len) :
    ((trialListOf myTrial).toFinset ≠
        pyRangeSet (listMaxI (trialListOf myTrial) + 1) →
      (f_merge_core self other w olb rd (some tp)).2.2.2.isSome = true) ∧
    ((trialListOf otherTrial).toFinset ≠
        pyRangeSet (listMaxI (trialListOf otherTrial) + 1) →
      (f_merge_core self other w olb rd (some tp)).2.2.2.isSome = true) ∧
    ((f_merge_core self other w olb rd (some tp)).2.2.2 = none →
      ∃ q, alookup (f_merge_core self other w olb rd (some tp)).1.params tp = some q ∧
        q.range = (if myTrial.f_has_range then myTrial.range
            else List.replicate self.len myTrial.f_get) ++
          (trialListOf otherTrial).map
            (fun x => x + (listMaxI (trialListOf myTrial) + 1)) ∧
        q.range.toFinset =
          pyRangeSet (listMaxI (trialListOf myTrial) +
            listMaxI (trialListOf otherTrial) + 2)) := by
  refine ⟨fun h1 => f_merge_core_err_isSome self other w olb rd (some tp)
      (mergeParameters_trial_fail1 self other rd tp myTrial hmy h1),
    fun h2 => f_merge_core_err_isSome self other w olb rd (some tp)
      (mergeParameters_trial_fail2 self other rd tp otherTrial hot h2), ?_⟩
  intro hsucc
  obtain ⟨herr, hmsr, hfinal, hguard⟩ :=
    f_merge_core_success_shape self other w olb rd (some tp) hsucc
  by_cases hc1 : (trialListOf myTrial).toFinset =
      pyRangeSet (listMaxI (trialListOf myTrial) + 1)
  case neg =>
    obtain ⟨e, he⟩ := mergeParameters_trial_fail1 self other rd tp myTrial hmy hc1
    rw [herr] at he
    exact absurd he (by simp)
  by_cases hc2 : (trialListOf otherTrial).toFinset =
      pyRangeSet (listMaxI (trialListOf otherTrial) + 1)
  case neg =>
    obtain ⟨e, he⟩ := mergeParameters_trial_fail2 self other rd tp otherTrial hot hc2
    rw [herr] at he
    exact absurd he (by simp)
  have heq := mergeParameters_trial_eq self other rd tp myTrial otherTrial hmy hot hc1 hc2
  set self' : Traj := { self with explored := addExplored self.explored tp } with hselfdef
  have hmy' : alookup self'.params tp = some myTrial := by
    rw [hselfdef]
    exact hmy
  have hslen' : 0 < self'.len := by
    rw [hselfdef]
    exact hslen
  rcases hml : markLoop self' (some tp) other.params false [(tp, myTrial, otherTrial)]
    with ⟨rd', ptc, merr⟩
  have hrd' : rd' = false := by
    have hh := markLoop_rd_false self' (some tp) other.params [(tp, myTrial, otherTrial)]
    rw [hml] at hh
    exact hh
  subst hrd'
  obtain ⟨extra, hptc, hex⟩ :=
    markLoop_extra self' (some tp) other.params false [(tp, myTrial, otherTrial)]
  rw [hml] at hptc
  simp only at hptc
  rw [List.singleton_append] at hptc
  subst hptc
  rw [heq] at herr hguard hfinal
  cases merr with
  | some e =>
    rw [show mergeParametersRest self' other false (some tp)
        (listMaxI (trialListOf myTrial) + 1)
        (trialListOf otherTrial) [(tp, myTrial, otherTrial)] =
      ⟨self', [], [], some e⟩ from by
        unfold mergeParametersRest
        rw [hml]] at herr
    exact absurd herr (by simp)
  | none =>
    by_cases holen0 : other.len = 0
    case pos =>
      exfalso
      rw [show mergeParametersRest self' other false (some tp)
          (listMaxI (trialListOf myTrial) + 1)
          (trialListOf otherTrial) [(tp, myTrial, otherTrial)] =
        ⟨self', List.replicate other.len true, [], none⟩ from by
          unfold mergeParametersRest
          rw [hml]
          simp only []
          rw [show (if false = true then
              computeUseRuns ((tp, myTrial, otherTrial) :: extra) other.len self'.len
              else List.replicate other.len true) = List.replicate other.len true from rfl]
          rw [show (if false = true then
              restoreMarked self' ((tp, myTrial, otherTrial) :: extra)
              else self') = self' from rfl]
          rw [if_pos (by rw [countTrue_replicate_true]; exact holen0)]] at hguard
      apply hguard
      simp only []
      rw [holen0]
      rfl
    case neg =>
      rcases hel : extendLoop self' (List.replicate other.len true)
          (countTrue (List.replicate other.len true)) (some tp)
          (listMaxI (trialListOf myTrial) + 1) (trialListOf otherTrial)
          ((tp, myTrial, otherTrial) :: extra) with ⟨self2, e2⟩
      have hreq : mergeParametersRest self' other false (some tp)
          (listMaxI (trialListOf myTrial) + 1) (trialListOf otherTrial)
          [(tp, myTrial, otherTrial)] =
          ⟨self2, List.replicate other.len true,
            ((tp, myTrial, otherTrial) :: extra).map (fun e => e.1), e2⟩ := by
        unfold mergeParametersRest
        rw [hml]
        simp only []
        rw [show (if false = true then
            computeUseRuns ((tp, myTrial, otherTrial) :: extra) other.len self'.len
            else List.replicate other.len true) = List.replicate other.len true from rfl]
        rw [show (if false = true then
            restoreMarked self' ((tp, myTrial, otherTrial) :: extra)
            else self') = self' from rfl]
        rw [if_neg (show ¬ (countTrue (List.replicate other.len true) = 0) from by
          rw [countTrue_replicate_true]; exact holen0)]
        rw [hel]
        cases e2 <;> rfl
      rw [hreq] at herr hfinal
      simp only [] at herr hfinal
      subst herr
      rw [extendLoop_trial_step self' (List.replicate other.len true)
        (countTrue (List.replicate other.len true)) tp
        (listMaxI (trialListOf myTrial) + 1) (trialListOf otherTrial)
        myTrial otherTrial extra hmy' hslen'] at hel
      have hframe := extendLoop_params_frame (List.replicate other.len true)
        (countTrue (List.replicate other.len true)) (some tp)
        (listMaxI (trialListOf myTrial) + 1) (trialListOf otherTrial) tp extra
        { self' with
          params := ainsert self'.params tp
            ⟨myTrial.default,
             (if myTrial.f_has_range then myTrial.range
               else List.replicate self'.len myTrial.f_get) ++
               (trialListOf otherTrial).map
                 (fun x => x + (listMaxI (trialListOf myTrial) + 1)),
             false, myTrial.access⟩
          explored := addExplored self'.explored tp }
        (fun e he => fun hc => hex e he (by rw [hc]))
      rw [hel] at hframe
      simp only [] at hframe
      rw [alookup_ainsert] at hframe
      refine ⟨⟨myTrial.default,
        (if myTrial.f_has_range then myTrial.range
          else List.replicate self.len myTrial.f_get) ++
          (trialListOf otherTrial).map
            (fun x => x + (listMaxI (trialListOf myTrial) + 1)),
        false, myTrial.access⟩, ?_, rfl, ?_⟩
      · rw [hfinal, mergeSingleRuns_params_frame]
        exact hframe
      · show ((if myTrial.f_has_range then myTrial.range
            else List.replicate self.len myTrial.f_get) ++
          (trialListOf otherTrial).map
            (fun x => x + (listMaxI (trialListOf myTrial) + 1))).toFinset = _
        rw [List.toFinset_append, list_toFinset_map]
        have hbase : (if myTrial.f_has_range then myTrial.range
            else List.replicate self.len myTrial.f_get).toFinset =
            pyRangeSet (listMaxI (trialListOf myTrial) + 1) := by
          by_cases hhr : myTrial.f_has_range = true
          · rw [if_pos hhr]
            rw [← hc1]
            unfold trialListOf
            rw [if_pos hhr]
          · have hhr' : myTrial.f_has_range = false := by
              cases hb : myTrial.f_has_range
              · rfl
              · exact absurd hb hhr
            rw [if_neg hhr]
            rw [toFinset_replicate_pos self.len myTrial.f_get hslen, ← hc1]
            unfold trialListOf
            rw [if_neg hhr]
            simp
        rw [hbase, hc2]
        have ht1 : 0 ≤ listMaxI (trialListOf myTrial) :=
          nonneg_of_trial_contig _ _ (trialListOf_ne_nil myTrial) hc1
        have ht2 : 0 ≤ listMaxI (trialListOf otherTrial) :=
          nonneg_of_trial_contig _ _ (trialListOf_ne_nil otherTrial) hc2
        rw [pyRangeSet_union _ _ (by omega) (by omega)]
        congr 1
        ring

/-- The two-run current trajectory with contiguous trial values `{0, 1}`
for the C5 witness. -/
def c5Self : Traj := (f_explore (freshTrajWith [(pPath, 0)]) [(pPath, [0, 1])]).1

/-- The one-run other trajectory with trial value set `{0}` for the C5
witness. -/
def c5Other : Traj := (f_explore (freshTrajWith [(pPath, 0)]) [(pPath, [0])]).1

/-- Witness for C5: merging the one-run trajectory (trial values `{0}`)
into the two-run one (trial values `{0, 1}`) shifts the other side's
trial value by 2, giving the range `[0, 1, 2]` covering `{0..2}`. -/
theorem C5_witness :
    ∃ q, alookup (f_merge_core c5Self c5Other ⟨[], []⟩ [] true (some pPath)).1.params pPath
        = some q ∧
      q.range = [0, 1, 0 + (1 + 1)] ∧
      q.range.toFinset = pyRangeSet 3 := by
  have h := (C5_trial_merge c5Self c5Other ⟨[], []⟩ [] true pPath
    ⟨0, [0, 1], false, none⟩ ⟨0, [0], false, none⟩
    (by decide) (by decide) (by decide)).2.2 (by decide)
  obtain ⟨q, hq, hr, hs⟩ := h
  refine ⟨q, hq, ?_, ?_⟩
  · rw [hr]
    decide
  · rw [hs]
    decide

/-! ## Claim C4 -/

theorem computeUseRuns_all_false (ptc : List (Path × Param × Param)) (lo ls : Nat)
    (h : ∀ i < lo, ∃ j < ls, runsMatch ptc j i = true) :
    computeUseRuns ptc lo ls = List.replicate lo false := by
  unfold computeUseRuns
  rw [List.eq_replicate_iff]
  refine ⟨by simp, ?_⟩
  intro b hb
  obtain ⟨i, hi, rfl⟩ := List.mem_map.mp hb
  rw [Bool.not_eq_false']
  rw [List.any_eq_true]
  obtain ⟨j, hj, hm⟩ := h i (List.mem_range.mp hi)
  exact ⟨j, List.mem_range.mpr hj, hm⟩

theorem countTrue_replicate_false (n : Nat) : countTrue (List.replicate n false) = 0 := by
  unfold countTrue
  simp [List.filter_replicate]

theorem restoreMarked_view (self : Traj) (ptc : List (Path × Param × Param)) (k : Path) :
    (alookup (restoreMarked self ptc).params k).map (fun p => (p.default, p.range, p.locked)) =
    (alookup self.params k).map (fun p => (p.default, p.range, p.locked)) := by
  show (alookup (mapExplored self.params (ptc.map fun e => e.1) Param._restore_default) k).map _
    = _
  by_cases hk : k ∈ ptc.map (fun e => e.1)
  · rw [(mapExplored_lookup Param._restore_default (fun p => rfl) _ self.params k).2 hk]
    cases alookup self.params k <;> rfl
  · rw [(mapExplored_lookup Param._restore_default (fun p => rfl) _ self.params k).1 hk]

theorem mergeParameters_dedup (self other : Traj) (ptc : List (Path × Param × Param))
    (hmark : markLoop self none other.params true [] = (true, ptc, none))
    (hdup : ∀ i < other.len, ∃ j < self.len, runsMatch ptc j i = true) :
    mergeParameters self other true none =
      ⟨restoreMarked self ptc, List.replicate other.len false, [], none⟩ := by
  unfold mergeParameters mergeParametersRest
  simp only []
  have hred : (if (none : Option Path).isSome = true then false else true) = true := rfl
  rw [hred, hmark]
  simp only []
  rw [computeUseRuns_all_false ptc other.len self.len hdup]
  simp [countTrue_replicate_false]

/-- C4: merging a trajectory whose explored points are all duplicates of
the current one's (with `remove_duplicates=True`, no trial parameter,
not inside a single run) discards every run and `f_merge` raises
`ValueError` instead of completing; the run ledger, the link registry
and every leaf's value/range/lock view are left unchanged (only the
transient access cursors of the compared leaves were touched and
restored). -/
theorem C4_duplicate_merge_rejected (self other : Traj) (w : LinkWorld)
    (olb : List (Path × List (Path × List PName)))
    (ptc : List (Path × Param × Param))
    (hrun : self.isRun = false)
    (hmark : markLoop self none other.params true [] = (true, ptc, none))
    (hdup : ∀ i < other.len, ∃ j < self.len, runsMatch ptc j i = true) :
    (f_merge_core self other w olb true none).2.2.2 =
      some "ValueError: your merge discards all runs of the other trajectory" ∧
    (f_merge_core self other w olb true none).1.runInformation = self.runInformation ∧
    (f_merge_core self other w olb true none).1.runIdsIdx = self.runIdsIdx ∧
    (f_merge_core self other w olb true none).1.runIdsName = self.runIdsName ∧
    (f_merge_core self other w olb true none).1.explored = self.explored ∧
    (f_merge_core self other w olb true none).2.1 = w ∧
    ∀ k, (alookup (f_merge_core self other w olb true none).1.params k).map
        (fun p => (p.default, p.range, p.locked)) =
      (alookup self.params k).map (fun p => (p.default, p.range, p.locked)) := by
  have hcore : f_merge_core self other w olb true none =
      (restoreMarked self ptc, w, [],
       some "ValueError: your merge discards all runs of the other trajectory") := by
    unfold f_merge_core
    rw [if_neg (by rw [hrun]; simp)]
    simp only []
    rw [mergeParameters_dedup self other ptc hmark hdup]
    simp only []
    rw [if_pos (by simp)]
  rw [hcore]
  exact ⟨rfl, rfl, rfl, rfl, rfl, rfl, fun k => restoreMarked_view self ptc k⟩

/-- The explored two-run trajectory merged into itself for the C4
witness. -/
def c4Traj : Traj := (f_explore (freshTrajWith [(pPath, 0)]) [(pPath, [4, 5])]).1

/-- Witness for C4: merging the two-run trajectory into an identical
copy with deduplication on raises the discards-all-runs `ValueError`
and leaves the run records untouched. -/
theorem C4_witness :
    (f_merge_core c4Traj c4Traj ⟨[], []⟩ [] true none).2.2.2 =
      some "ValueError: your merge discards all runs of the other trajectory" ∧
    (f_merge_core c4Traj c4Traj ⟨[], []⟩ [] true none).1.runInformation =
      c4Traj.runInformation := by
  have h := C4_duplicate_merge_rejected c4Traj c4Traj ⟨[], []⟩ []
    ((markLoop c4Traj none c4Traj.params true []).2.1) (by decide) (by decide) (by decide)
  exact ⟨h.1, h.2.1⟩

/-! ## Claim C6 -/

/-- A non-dummy linked target node for the merge-link scenario. -/
def c6TgtNode : Path := [PName.other "results", PName.other "tgt"]

/-- A linking (source) node that lies under the dummy run branch. -/
def c6SrcNode : Path := [PName.other "results", PName.dummy, PName.other "grp"]

/-- The current trajectory's link world: only the target exists. -/
def c6World : LinkWorld := ⟨[c6TgtNode], []⟩

/-- The other trajectory's `_linked_by` registry: the dummy-branch node
links to the target. -/
def c6LinkedBy : List (Path × List (Path × List PName)) :=
  [(c6TgtNode, [(c6SrcNode, [PName.other "link1"])])]

/-- Run 0 was renumbered to run 5 in the merge. -/
def c6Dict : List (PName × PName) := [(rn 0, rn 5)]

/-- A linked target under run 0 for the positive renaming scenario. -/
def c6Tgt2 : Path := [PName.other "results", rn 0, PName.other "x"]

/-- An ordinary (non-dummy) linking node. -/
def c6Src2 : Path := [PName.other "results", PName.other "grp2"]

/-- The current link world already holds the renamed target path. -/
def c6World2 : LinkWorld := ⟨[[PName.other "results", rn 5, PName.other "x"]], []⟩

/-- The other trajectory links from the ordinary node to the run-0 target. -/
def c6LinkedBy2 : List (Path × List (Path × List PName)) :=
  [(c6Tgt2, [(c6Src2, [PName.other "lnk"])])]

/-- C6 (code bug): `_merge_links` logs "Ignoring links under `%s`" for a
linking node under the shared/default run branch (lines 1923-1926) but,
unlike the linked-target case (line 1905), lacks the `continue` — the
walk falls through and still creates the link whose source lies under
the dummy branch, contradicting the claim that such links are skipped.
The second conjunct shows the claimed positive behaviour is otherwise
real: a link to `results.run_00000000.x` is recreated at
`results.run_00000005.x` with no diagnostics when run 0 is renumbered
to run 5. -/
theorem C6_merge_links_dummy_source_not_skipped :
    (containsDummy c6SrcNode = true ∧
     (_merge_links c6World c6LinkedBy c6Dict).2 = ["ignoring links under dummy node"] ∧
     (_merge_links c6World c6LinkedBy c6Dict).1.links =
       [(c6SrcNode, PName.other "link1", c6TgtNode)]) ∧
    ((_merge_links c6World2 c6LinkedBy2 c6Dict).2 = [] ∧
     (_merge_links c6World2 c6LinkedBy2 c6Dict).1.links =
       [(c6Src2, PName.other "lnk", [PName.other "results", rn 5, PName.other "x"])]) := by
  decide

/-! ## Claim C2 -/

/-- C2 (as amended): on a fresh trajectory (length 1, only the record of
index 0, run 0 not completed, nothing explored, leaves in their default
unlocked unexplored state) and a NON-EMPTY dictionary of distinct
existing parameter names mapped to value sequences of one common length
`n ≥ 1`, `f_explore` succeeds, every named parameter gets the given
sequence as its range and is recorded as explored, and the trajectory
afterwards has length `n` with run records exactly for the names of
indices `0 .. n-1`; and `f_explore` on any trajectory that already has
explored parameters raises an error. -/
theorem C2_fresh_explore (t : Traj) (build : List (Path × List Int)) (n : Nat)
    (hrun : t.isRun = false) (hexp0 : t.explored = [])
    (hnfc : t.lengthDuringNfc = none)
    (hinfo : t.runInformation = [(rn 0, ⟨0, false⟩)])
    (hids : t.runIdsIdx = [(0, rn 0)])
    (hne : build ≠ []) (hn : 1 ≤ n)
    (hlen : ∀ kv ∈ build, (kv.2 : List Int).length = n)
    (hnodup : (build.map Prod.fst).Nodup)
    (hparams : ∀ kv ∈ build, ∃ p : Param,
        alookup t.params kv.1 = some p ∧ p.range = [] ∧ p.locked = false) :
    (f_explore t build).2 = none ∧
    (∀ kv ∈ build,
      alookup (f_explore t build).1.params kv.1 =
        (alookup t.params kv.1).map (fun p => { p with range := kv.2 }) ∧
      kv.1 ∈ (f_explore t build).1.explored) ∧
    (f_explore t build).1.runInformation.map Prod.fst = (List.range n).map rn ∧
    (f_explore t build).1.len = n ∧
    (∀ (t' : Traj) (b' : List (Path × List Int)),
      t'.explored ≠ [] → (f_explore t' b').2.isSome = true) := by
  obtain ⟨h1, h2, h3, h4, h5, _⟩ :=
    f_explore_ok t build n hrun hexp0 hnfc hinfo hids hne hn hlen hnodup hparams
  refine ⟨h1, ?_, h4, h5, fun t' b' => f_explore_already_explored t' b'⟩
  intro kv hkv
  refine ⟨h2 kv hkv, ?_⟩
  rw [h3]
  exact List.mem_map_of_mem Prod.fst hkv

/-- Witness for C2: a two-parameter exploration of length 3 on a fresh
trajectory succeeds and yields length 3. -/
theorem C2_witness :
    (f_explore (freshTrajWith [(pPath, 0), (qPath, 0)])
      [(pPath, [1, 2, 3]), (qPath, [4, 5, 6])]).2 = none ∧
    (f_explore (freshTrajWith [(pPath, 0), (qPath, 0)])
      [(pPath, [1, 2, 3]), (qPath, [4, 5, 6])]).1.len = 3 := by
  have h := C2_fresh_explore (freshTrajWith [(pPath, 0), (qPath, 0)])
    [(pPath, [1, 2, 3]), (qPath, [4, 5, 6])] 3
    (by decide) (by decide) (by decide) (by decide) (by decide) (by decide) (by decide)
    (by decide) (by decide)
    (by
      intro kv hkv
      refine ⟨⟨0, [], false, none⟩, ?_, rfl, rfl⟩
      cases hkv with
      | head => decide
      | tail _ hkv2 =>
        cases hkv2 with
        | head => decide
        | tail _ hkv3 => cases hkv3)
  exact ⟨h.1, h.2.2.2.1⟩

/-- Counterexample for C2 as stated: the empty dictionary (vacuously,
all of its value sequences have any common length `n`) makes
`f_explore` on a fresh trajectory raise (the `length` local of the
source is never assigned, so `range(length)` raises `NameError`)
instead of succeeding. -/
theorem C2_counterexample :
    (f_explore (freshTrajWith [(pPath, 0)]) []).2.isSome = true := by decide

/-! ## Claim C3 -/

/-- C3 (as amended): whenever `f_explore` or `f_expand` fails — in
particular on a range-length mismatch — the run ledger is untouched: no
run records are added and the reported trajectory length is unchanged.
(The parameter store is NOT rolled back: leaves processed before the
failing length check keep their new ranges and explored marks, see the
counterexample.) -/
theorem C3_failed_explore_or_expand_leaves_ledger_unchanged (t : Traj)
    (build : List (Path × List Int)) :
    ((f_explore t build).2.isSome = true →
      (f_explore t build).1.runInformation = t.runInformation ∧
      (f_explore t build).1.len = t.len) ∧
    ((f_expand t build).2.isSome = true →
      (f_expand t build).1.runInformation = t.runInformation ∧
      (f_expand t build).1.len = t.len) :=
  ⟨f_explore_err_frame t build, f_expand_err_frame t build⟩

/-- Witness for C3: a concrete mismatched exploration fails and leaves
the run records untouched. -/
theorem C3_witness :
    (f_explore (freshTrajWith [(pPath, 0), (qPath, 0)])
        [(pPath, [1, 2]), (qPath, [3])]).1.runInformation =
      (freshTrajWith [(pPath, 0), (qPath, 0)]).runInformation :=
  ((C3_failed_explore_or_expand_leaves_ledger_unchanged
    (freshTrajWith [(pPath, 0), (qPath, 0)])
    [(pPath, [1, 2]), (qPath, [3])]).1 (by decide)).1

/-- Counterexample for C3 as stated: on the length mismatch
`{p: [1,2], q: [3]}` the failing `f_explore` has already explored both
leaves (the source explores each parameter before comparing lengths),
so parameter ranges and the explored set do change. -/
theorem C3_counterexample :
    (f_explore (freshTrajWith [(pPath, 0), (qPath, 0)])
        [(pPath, [1, 2]), (qPath, [3])]).2.isSome = true ∧
    (alookup (f_explore (freshTrajWith [(pPath, 0), (qPath, 0)])
        [(pPath, [1, 2]), (qPath, [3])]).1.params pPath).map Param.range = some [1, 2] ∧
    (f_explore (freshTrajWith [(pPath, 0), (qPath, 0)])
        [(pPath, [1, 2]), (qPath, [3])]).1.explored ≠ [] := by decide

end Pypet
